import Mathlib

/-!
Shallow embedding of `src/lib.rs`, an Apertium-stream parser built from nom's
complete-input combinators (`tag`, `is_not`, `one_of`, `escaped_transform`,
`many0`, `separated_list0`, `alt`, `delimited`, `tuple`, `pair`, `space1`).

A parser takes the remaining input as a list of characters and returns `none`
for a nom parse error, or `some (value, rest)` on success (nom returns the
pair the other way round; nothing depends on that order).  The iterative nom
combinators (`many0`, the loop of `separated_list0`) are embedded with an
explicit fuel argument that is decremented once per loop iteration; since
every iteration of those loops consumes at least one character of input, the
public wrappers instantiate the fuel with `input.length + 1`, which the
consumption lemmas below show is never exhausted.
-/

namespace Reinars

abbrev Rem := List Char

/-- The source's enum Flag. -/
inductive Flag where
  | Nothing
  | Unanalyzed
  | Untranslated
  | UnableToGenerateOrStartOfInvariablePart

/-- The source's struct SubLU. -/
structure SubLU where
  ling_form : List Char
  flag : Flag
  tags : List (List Char)

/-- The source's enum StreamUnit. -/
inductive StreamUnit where
  | LexicalUnit : List SubLU → StreamUnit
  | Space : List Char → StreamUnit
  | Format : List Char → StreamUnit
  | JoinedLexicalUnit : List (List SubLU) → StreamUnit
  | Chunk : SubLU → List StreamUnit → StreamUnit

/-- The character class of `is_not(r"^$@*/<>{}\[]")`, which is also the class
of `one_of(r"^$@*/<>{}\[]")`, both used in `parse_sub_lu_basic`.  Note that
the character `#` is not a member. -/
def lingFormReserved : Rem :=
  ['^', '$', '@', '*', '/', '<', '>', '{', '}', '\\', '[', ']']

/-- Embedding of nom's complete `escaped_transform(is_not(r"^$@*/<>{}\[]"), '\\',
one_of(r"^$@*/<>{}\[]"))`, processed character by character (equivalent to
nom's run-at-a-time processing, since `is_not` takes the maximal run of
characters outside the class).  `atStart` is true while nothing has been
consumed yet (nom's `index == 0`); nom errors out when the first thing it
sees is an unescapable class character, but succeeds with what was consumed
so far when that happens later.  On empty remaining input nom's loop body
never runs and the combinator succeeds with empty output. -/
def escaped_transform_lf : Rem → Bool → Option (List Char × Rem)
  | [], _ => some ([], [])
  | c :: rest, atStart =>
    if lingFormReserved.contains c then
      if c = '\\' then
        match rest with
        | [] => none
        | d :: rest2 =>
          if lingFormReserved.contains d then
            (escaped_transform_lf rest2 false).map (fun p => (d :: p.1, p.2))
          else none
      else if atStart then none
      else some ([], c :: rest)
    else
      (escaped_transform_lf rest false).map (fun p => (c :: p.1, p.2))

/-- The `ling_form_escape_parse` parser from `parse_sub_lu_basic`. -/
def ling_form_escape_parse (s : Rem) : Option (List Char × Rem) :=
  escaped_transform_lf s true

/-- The body of `parse_tag`'s `delimited(tag("<"), is_not("<>"), tag(">"))`
after the opening `<`: accumulate the (non-empty, maximal) `is_not("<>")`
run, then require the closing `>`. -/
def tag_go : List Char → Rem → Option (List Char × Rem)
  | _, [] => none
  | acc, c :: rest =>
    if c = '>' then
      if acc.isEmpty then none else some (acc.reverse, rest)
    else if c = '<' then none
    else tag_go (c :: acc) rest

/-- Embedding of `parse_tag`: `delimited(tag("<"), is_not("<>"), tag(">"))`. -/
def parse_tag : Rem → Option (List Char × Rem)
  | [] => none
  | c :: rest => if c = '<' then tag_go [] rest else none

/-- Embedding of nom's `many0`, with its infinite-loop guard (an element parser that
succeeds without consuming input is a `Many0` error), fueled. -/
def many0F {α : Type} (p : Nat → Rem → Option (α × Rem)) : Nat → Rem → Option (List α × Rem)
  | 0, _ => none
  | f + 1, s =>
    match p (f + 1) s with
    | none => some ([], s)
    | some (a, r) =>
      if r.length = s.length then none
      else (many0F p f r).map (fun q => (a :: q.1, q.2))

/-- The loop of nom's `separated_list0(tag(sep), p)` after the first element:
try the separator, then the next element; if either fails, stop and give back
the input position from before the separator.  (nom's guard that the
separator must consume input is omitted: `tag(sep)` always consumes exactly
one character here.) -/
def sepLoopF {α : Type} (p : Nat → Rem → Option (α × Rem)) (sep : Char) :
    Nat → Rem → Option (List α × Rem)
  | 0, _ => none
  | f + 1, i =>
    match i with
    | [] => some ([], [])
    | c :: i1 =>
      if c = sep then
        match p (f + 1) i1 with
        | none => some ([], c :: i1)
        | some (a, i2) => (sepLoopF p sep f i2).map (fun q => (a :: q.1, q.2))
      else some ([], c :: i1)

/-- Embedding of nom's `separated_list0(tag(sep), p)`: an initial element (failure means
the empty list), then the separator/element loop. -/
def sepList0F {α : Type} (p : Nat → Rem → Option (α × Rem)) (sep : Char)
    (f : Nat) (s : Rem) : Option (List α × Rem) :=
  match f with
  | 0 => none
  | _ + 1 =>
    match p f s with
    | none => some ([], s)
    | some (a, i) => (sepLoopF p sep f i).map (fun q => (a :: q.1, q.2))

/-- The flag position `alt((tag("*"), tag("#"), tag("@"), tag("")))` used by
both SubUnit shapes; the trailing `tag("")` means it never fails. -/
def parse_flag : Rem → List Char × Rem
  | [] => ([], [])
  | c :: r =>
    if c = '*' then (['*'], r)
    else if c = '#' then (['#'], r)
    else if c = '@' then (['@'], r)
    else ([], c :: r)

/-- The source's make_flag. -/
def make_flag : List Char → Flag
  | ['*'] => Flag.Unanalyzed
  | ['@'] => Flag.Untranslated
  | ['#'] => Flag.UnableToGenerateOrStartOfInvariablePart
  | _ => Flag.Nothing

/-- Embedding of `many0(parse_tag)` (the element parser ignores the fuel: `parse_tag` is
not itself a loop). -/
def many0_tags : Nat → Rem → Option (List (List Char) × Rem) :=
  many0F (fun _ s => parse_tag s)

/-- Embedding of `parse_sub_lu_basic`: `tuple((flag-alt, ling_form_escape_parse,
many0(parse_tag)))`. -/
def parse_sub_lu_basicF (f : Nat) (s : Rem) : Option (SubLU × Rem) :=
  (ling_form_escape_parse (parse_flag s).2).bind fun p =>
    (many0_tags f p.2).map fun q => (⟨p.1, make_flag (parse_flag s).1, q.1⟩, q.2)

/-- Embedding of `parse_sub_lu_without_ling_form`: `tuple((flag-alt, many0(parse_tag)))`,
with `ling_form` fixed to the empty string. -/
def parse_sub_lu_without_ling_formF (f : Nat) (s : Rem) : Option (SubLU × Rem) :=
  (many0_tags f (parse_flag s).2).map fun q => (⟨[], make_flag (parse_flag s).1, q.1⟩, q.2)

/-- Embedding of `parse_sub_lu`: `alt((parse_sub_lu_basic, parse_sub_lu_without_ling_form))`. -/
def parse_sub_luF (f : Nat) (s : Rem) : Option (SubLU × Rem) :=
  match parse_sub_lu_basicF f s with
  | some x => some x
  | none => parse_sub_lu_without_ling_formF f s

/-- Embedding of `parse_basic_lu`: `delimited(tag("^"), separated_list0(tag("/"),
parse_sub_lu), tag("$"))`, wrapped as `StreamUnit::LexicalUnit`. -/
def parse_basic_luF (f : Nat) (s : Rem) : Option (StreamUnit × Rem) :=
  match s with
  | [] => none
  | c :: s1 =>
    if c = '^' then
      match sepList0F parse_sub_luF '/' f s1 with
      | none => none
      | some (l, r) =>
        match r with
        | [] => none
        | c2 :: r1 => if c2 = '$' then some (StreamUnit.LexicalUnit l, r1) else none
    else none

/-- Embedding of `parse_joined_lu`: `delimited(tag("^"), separated_list0(tag("/"),
separated_list0(tag("+"), parse_sub_lu)), tag("$"))`, wrapped as
`StreamUnit::JoinedLexicalUnit`. -/
def parse_joined_luF (f : Nat) (s : Rem) : Option (StreamUnit × Rem) :=
  match s with
  | [] => none
  | c :: s1 =>
    if c = '^' then
      match sepList0F (sepList0F parse_sub_luF '+') '/' f s1 with
      | none => none
      | some (l, r) =>
        match r with
        | [] => none
        | c2 :: r1 => if c2 = '$' then some (StreamUnit.JoinedLexicalUnit l, r1) else none
    else none

/-- The body of `parse_format`'s `delimited(tag("["), is_not("[]"),
tag("]"))` after the opening `[`. -/
def format_go : List Char → Rem → Option (List Char × Rem)
  | _, [] => none
  | acc, c :: rest =>
    if c = ']' then
      if acc.isEmpty then none else some (acc.reverse, rest)
    else if c = '[' then none
    else format_go (c :: acc) rest

/-- Embedding of `parse_format`. -/
def parse_format : Rem → Option (StreamUnit × Rem)
  | [] => none
  | c :: rest =>
    if c = '[' then (format_go [] rest).map (fun p => (StreamUnit.Format p.1, p.2))
    else none

/-- The character class of nom's `space1`: spaces and tabs. -/
def isSpaceTab (c : Char) : Bool := c = ' ' || c = '\t'

/-- Embedding of `parse_space`: `alt((space1, tag("\n")))`. -/
def parse_space (s : Rem) : Option (StreamUnit × Rem) :=
  let run := s.takeWhile isSpaceTab
  if run.isEmpty then
    match s with
    | [] => none
    | c :: r => if c = '\n' then some (StreamUnit.Space ['\n'], r) else none
  else some (StreamUnit.Space run, s.dropWhile isSpaceTab)

/-- Embedding of `parse_lu_or_space_or_format`: `alt((parse_format, parse_basic_lu,
parse_joined_lu, parse_space))` (this is the chunk-children order, which
differs from the top-level order). -/
def parse_lu_or_space_or_formatF (f : Nat) (s : Rem) : Option (StreamUnit × Rem) :=
  match parse_format s with
  | some x => some x
  | none =>
    match parse_basic_luF f s with
    | some x => some x
    | none =>
      match parse_joined_luF f s with
      | some x => some x
      | none => parse_space s

/-- Embedding of `parse_chunk`: `pair(parse_sub_lu, delimited(tag("{"),
many0(parse_lu_or_space_or_format), tag("}")))`. -/
def parse_chunkF (f : Nat) (s : Rem) : Option (StreamUnit × Rem) :=
  match parse_sub_luF f s with
  | none => none
  | some (head, r) =>
    match r with
    | [] => none
    | c :: r1 =>
      if c = '{' then
        match many0F parse_lu_or_space_or_formatF f r1 with
        | none => none
        | some (cs, r2) =>
          match r2 with
          | [] => none
          | c2 :: r3 => if c2 = '}' then some (StreamUnit.Chunk head cs, r3) else none
      else none

/-- Embedding of `parse_stream_unit`: `alt((parse_space, parse_format, parse_basic_lu,
parse_joined_lu, parse_chunk))`. -/
def parse_stream_unitF (f : Nat) (s : Rem) : Option (StreamUnit × Rem) :=
  match parse_space s with
  | some x => some x
  | none =>
    match parse_format s with
    | some x => some x
    | none =>
      match parse_basic_luF f s with
      | some x => some x
      | none =>
        match parse_joined_luF f s with
        | some x => some x
        | none => parse_chunkF f s

/-- Embedding of `parse_stream`: `many0(parse_stream_unit)`. -/
def parse_streamF (f : Nat) (s : Rem) : Option (List StreamUnit × Rem) :=
  many0F parse_stream_unitF f s

/-- Fuel-instantiated wrapper (the fuel `s.length + 1` is sufficient, see the
fuel-irrelevance lemmas below). -/
def parse_sub_lu_basic (s : Rem) : Option (SubLU × Rem) :=
  parse_sub_lu_basicF (s.length + 1) s

/-- Fuel-instantiated wrapper. -/
def parse_sub_lu_without_ling_form (s : Rem) : Option (SubLU × Rem) :=
  parse_sub_lu_without_ling_formF (s.length + 1) s

/-- Fuel-instantiated wrapper. -/
def parse_sub_lu (s : Rem) : Option (SubLU × Rem) :=
  parse_sub_luF (s.length + 1) s

/-- Fuel-instantiated wrapper. -/
def parse_basic_lu (s : Rem) : Option (StreamUnit × Rem) :=
  parse_basic_luF (s.length + 1) s

/-- Fuel-instantiated wrapper. -/
def parse_joined_lu (s : Rem) : Option (StreamUnit × Rem) :=
  parse_joined_luF (s.length + 1) s

/-- Fuel-instantiated wrapper. -/
def parse_lu_or_space_or_format (s : Rem) : Option (StreamUnit × Rem) :=
  parse_lu_or_space_or_formatF (s.length + 1) s

/-- Fuel-instantiated wrapper. -/
def parse_chunk (s : Rem) : Option (StreamUnit × Rem) :=
  parse_chunkF (s.length + 1) s

/-- Fuel-instantiated wrapper. -/
def parse_stream_unit (s : Rem) : Option (StreamUnit × Rem) :=
  parse_stream_unitF (s.length + 1) s

/-- Fuel-instantiated wrapper. -/
def parse_stream (s : Rem) : Option (List StreamUnit × Rem) :=
  parse_streamF (s.length + 1) s

/-! ### Consumption lemmas for the leaf parsers -/

theorem escaped_transform_lf_suffix : ∀ (s : Rem) (b : Bool) (o : List Char) (r : Rem),
    escaped_transform_lf s b = some (o, r) → r <:+ s
  | [], _, o, r => by
    intro h
    simp only [escaped_transform_lf, Option.some.injEq, Prod.mk.injEq] at h
    obtain ⟨h1, h2⟩ := h
    subst h2
    exact List.suffix_refl []
  | [c], b, o, r => by
    intro h
    simp only [escaped_transform_lf] at h
    split at h
    · split at h
      · exact absurd h (by simp)
      · split at h
        · exact absurd h (by simp)
        · simp only [Option.some.injEq, Prod.mk.injEq] at h
          obtain ⟨h1, h2⟩ := h
          subst h2
          exact List.suffix_refl _
    · simp only [Option.map_some', Option.some.injEq, Prod.mk.injEq] at h
      obtain ⟨h1, h2⟩ := h
      subst h2
      exact List.nil_suffix
  | c :: d :: rest2, b, o, r => by
    intro h
    simp only [escaped_transform_lf] at h
    split at h
    · split at h
      · split at h
        · cases hrec : escaped_transform_lf rest2 false with
          | none => rw [hrec] at h; exact absurd h (by simp)
          | some p =>
            obtain ⟨o2, r2⟩ := p
            rw [hrec] at h
            simp only [Option.map_some', Option.some.injEq, Prod.mk.injEq] at h
            obtain ⟨h1, h2⟩ := h
            subst h2
            exact (escaped_transform_lf_suffix rest2 false o2 r2 hrec).trans
              ((List.suffix_cons d rest2).trans (List.suffix_cons c (d :: rest2)))
        · exact absurd h (by simp)
      · split at h
        · exact absurd h (by simp)
        · simp only [Option.some.injEq, Prod.mk.injEq] at h
          obtain ⟨h1, h2⟩ := h
          subst h2
          exact List.suffix_refl _
    · cases hrec : escaped_transform_lf (d :: rest2) false with
      | none => rw [hrec] at h; exact absurd h (by simp)
      | some p =>
        obtain ⟨o2, r2⟩ := p
        rw [hrec] at h
        simp only [Option.map_some', Option.some.injEq, Prod.mk.injEq] at h
        obtain ⟨h1, h2⟩ := h
        subst h2
        exact (escaped_transform_lf_suffix (d :: rest2) false o2 r2 hrec).trans
          (List.suffix_cons c (d :: rest2))

theorem ling_form_escape_parse_suffix (s : Rem) (o : List Char) (r : Rem)
    (h : ling_form_escape_parse s = some (o, r)) : r <:+ s :=
  escaped_transform_lf_suffix s true o r h

/-- On non-empty input, a successful `ling_form_escape_parse` consumes at
least one character. -/
theorem ling_form_escape_parse_strict : ∀ (s : Rem) (o : List Char) (r : Rem),
    s ≠ [] → ling_form_escape_parse s = some (o, r) → r.length < s.length
  | [], o, r => by intro hne h; exact absurd rfl hne
  | [c], o, r => by
    intro hne h
    simp only [ling_form_escape_parse, escaped_transform_lf] at h
    split at h
    · split at h
      · exact absurd h (by simp)
      · simp at h
    · simp only [Option.map_some', Option.some.injEq, Prod.mk.injEq] at h
      obtain ⟨h1, h2⟩ := h
      subst h2
      simp
  | c :: d :: rest2, o, r => by
    intro hne h
    simp only [ling_form_escape_parse, escaped_transform_lf] at h
    split at h
    · split at h
      · split at h
        · cases hrec : escaped_transform_lf rest2 false with
          | none => rw [hrec] at h; exact absurd h (by simp)
          | some p =>
            obtain ⟨o2, r2⟩ := p
            rw [hrec] at h
            simp only [Option.map_some', Option.some.injEq, Prod.mk.injEq] at h
            obtain ⟨h1, h2⟩ := h
            subst h2
            have := (escaped_transform_lf_suffix rest2 false o2 r2 hrec).length_le
            simp only [List.length_cons]
            omega
        · exact absurd h (by simp)
      · simp at h
    · cases hrec : escaped_transform_lf (d :: rest2) false with
      | none => rw [hrec] at h; exact absurd h (by simp)
      | some p =>
        obtain ⟨o2, r2⟩ := p
        rw [hrec] at h
        simp only [Option.map_some', Option.some.injEq, Prod.mk.injEq] at h
        obtain ⟨h1, h2⟩ := h
        subst h2
        have := (escaped_transform_lf_suffix (d :: rest2) false o2 r2 hrec).length_le
        simp only [List.length_cons] at this ⊢
        omega

/-- A successful lemma-text parse stops either at the end of the input or at
an unescaped member of the reserved class (maximality of the match). -/
theorem escaped_transform_lf_rest_shape : ∀ (s : Rem) (b : Bool) (o : List Char) (r : Rem),
    escaped_transform_lf s b = some (o, r) →
    r = [] ∨ ∃ c t, r = c :: t ∧ lingFormReserved.contains c = true ∧ c ≠ '\\'
  | [], _, o, r => by
    intro h
    simp only [escaped_transform_lf, Option.some.injEq, Prod.mk.injEq] at h
    exact Or.inl h.2.symm
  | [c], b, o, r => by
    intro h
    simp only [escaped_transform_lf] at h
    split at h
    · split at h
      · exact absurd h (by simp)
      · split at h
        · exact absurd h (by simp)
        · simp only [Option.some.injEq, Prod.mk.injEq] at h
          refine Or.inr ⟨c, [], h.2.symm, by assumption, by assumption⟩
    · simp only [Option.map_some', Option.some.injEq, Prod.mk.injEq] at h
      exact Or.inl h.2.symm
  | c :: d :: rest2, b, o, r => by
    intro h
    simp only [escaped_transform_lf] at h
    split at h
    · split at h
      · split at h
        · cases hrec : escaped_transform_lf rest2 false with
          | none => rw [hrec] at h; exact absurd h (by simp)
          | some p =>
            obtain ⟨o2, r2⟩ := p
            rw [hrec] at h
            simp only [Option.map_some', Option.some.injEq, Prod.mk.injEq] at h
            obtain ⟨h1, h2⟩ := h
            subst h2
            exact escaped_transform_lf_rest_shape rest2 false o2 r2 hrec
        · exact absurd h (by simp)
      · split at h
        · exact absurd h (by simp)
        · simp only [Option.some.injEq, Prod.mk.injEq] at h
          refine Or.inr ⟨c, d :: rest2, h.2.symm, by assumption, by assumption⟩
    · cases hrec : escaped_transform_lf (d :: rest2) false with
      | none => rw [hrec] at h; exact absurd h (by simp)
      | some p =>
        obtain ⟨o2, r2⟩ := p
        rw [hrec] at h
        simp only [Option.map_some', Option.some.injEq, Prod.mk.injEq] at h
        obtain ⟨h1, h2⟩ := h
        subst h2
        exact escaped_transform_lf_rest_shape (d :: rest2) false o2 r2 hrec

theorem tag_go_suffix : ∀ (acc : List Char) (s : Rem) (t : List Char) (r : Rem),
    tag_go acc s = some (t, r) → r <:+ s
  | _, [], t, r => by intro h; exact absurd h (by simp [tag_go])
  | acc, c :: rest, t, r => by
    intro h
    simp only [tag_go] at h
    split at h
    · split at h
      · exact absurd h (by simp)
      · simp only [Option.some.injEq, Prod.mk.injEq] at h
        rw [← h.2]
        exact List.suffix_cons c rest
    · split at h
      · exact absurd h (by simp)
      · exact (tag_go_suffix (c :: acc) rest t r h).trans (List.suffix_cons c rest)

theorem tag_go_strict : ∀ (acc : List Char) (s : Rem) (t : List Char) (r : Rem),
    tag_go acc s = some (t, r) → r.length < s.length
  | _, [], t, r => by intro h; exact absurd h (by simp [tag_go])
  | acc, c :: rest, t, r => by
    intro h
    simp only [tag_go] at h
    split at h
    · split at h
      · exact absurd h (by simp)
      · simp only [Option.some.injEq, Prod.mk.injEq] at h
        rw [← h.2]
        simp
    · split at h
      · exact absurd h (by simp)
      · have := tag_go_strict (c :: acc) rest t r h
        simp only [List.length_cons]
        omega

theorem parse_tag_suffix (s : Rem) (t : List Char) (r : Rem)
    (h : parse_tag s = some (t, r)) : r <:+ s := by
  cases s with
  | nil => exact absurd h (by simp [parse_tag])
  | cons c rest =>
    simp only [parse_tag] at h
    split at h
    · exact (tag_go_suffix [] rest t r h).trans (List.suffix_cons c rest)
    · exact absurd h (by simp)

theorem parse_tag_strict (s : Rem) (t : List Char) (r : Rem)
    (h : parse_tag s = some (t, r)) : r.length < s.length := by
  cases s with
  | nil => exact absurd h (by simp [parse_tag])
  | cons c rest =>
    simp only [parse_tag] at h
    split at h
    · have := tag_go_strict [] rest t r h
      simp only [List.length_cons]
      omega
    · exact absurd h (by simp)

theorem format_go_suffix : ∀ (acc : List Char) (s : Rem) (t : List Char) (r : Rem),
    format_go acc s = some (t, r) → r <:+ s
  | _, [], t, r => by intro h; exact absurd h (by simp [format_go])
  | acc, c :: rest, t, r => by
    intro h
    simp only [format_go] at h
    split at h
    · split at h
      · exact absurd h (by simp)
      · simp only [Option.some.injEq, Prod.mk.injEq] at h
        rw [← h.2]
        exact List.suffix_cons c rest
    · split at h
      · exact absurd h (by simp)
      · exact (format_go_suffix (c :: acc) rest t r h).trans (List.suffix_cons c rest)

theorem format_go_strict : ∀ (acc : List Char) (s : Rem) (t : List Char) (r : Rem),
    format_go acc s = some (t, r) → r.length < s.length
  | _, [], t, r => by intro h; exact absurd h (by simp [format_go])
  | acc, c :: rest, t, r => by
    intro h
    simp only [format_go] at h
    split at h
    · split at h
      · exact absurd h (by simp)
      · simp only [Option.some.injEq, Prod.mk.injEq] at h
        rw [← h.2]
        simp
    · split at h
      · exact absurd h (by simp)
      · have := format_go_strict (c :: acc) rest t r h
        simp only [List.length_cons]
        omega

theorem parse_format_suffix (s : Rem) (u : StreamUnit) (r : Rem)
    (h : parse_format s = some (u, r)) : r <:+ s := by
  cases s with
  | nil => exact absurd h (by simp [parse_format])
  | cons c rest =>
    simp only [parse_format] at h
    split at h
    · cases hgo : format_go [] rest with
      | none => rw [hgo] at h; exact absurd h (by simp)
      | some p =>
        obtain ⟨t, r2⟩ := p
        rw [hgo] at h
        simp only [Option.map_some', Option.some.injEq, Prod.mk.injEq] at h
        rw [← h.2]
        exact (format_go_suffix [] rest t r2 hgo).trans (List.suffix_cons c rest)
    · exact absurd h (by simp)

theorem parse_format_strict (s : Rem) (u : StreamUnit) (r : Rem)
    (h : parse_format s = some (u, r)) : r.length < s.length := by
  cases s with
  | nil => exact absurd h (by simp [parse_format])
  | cons c rest =>
    simp only [parse_format] at h
    split at h
    · cases hgo : format_go [] rest with
      | none => rw [hgo] at h; exact absurd h (by simp)
      | some p =>
        obtain ⟨t, r2⟩ := p
        rw [hgo] at h
        simp only [Option.map_some', Option.some.injEq, Prod.mk.injEq] at h
        rw [← h.2]
        have := format_go_strict [] rest t r2 hgo
        simp only [List.length_cons]
        omega
    · exact absurd h (by simp)

theorem parse_flag_suffix (s : Rem) : (parse_flag s).2 <:+ s := by
  cases s with
  | nil => simp [parse_flag]
  | cons c rest =>
    simp only [parse_flag]
    split
    · exact List.suffix_cons c rest
    · split
      · exact List.suffix_cons c rest
      · split
        · exact List.suffix_cons c rest
        · exact List.suffix_refl _

theorem parse_space_suffix (s : Rem) (u : StreamUnit) (r : Rem)
    (h : parse_space s = some (u, r)) : r <:+ s := by
  simp only [parse_space] at h
  split at h
  · cases s with
    | nil => exact absurd h (by simp)
    | cons c rest =>
      simp only at h
      split at h
      · simp only [Option.some.injEq, Prod.mk.injEq] at h
        rw [← h.2]
        exact List.suffix_cons c rest
      · exact absurd h (by simp)
  · simp only [Option.some.injEq, Prod.mk.injEq] at h
    rw [← h.2]
    exact List.dropWhile_suffix isSpaceTab

theorem parse_space_strict (s : Rem) (u : StreamUnit) (r : Rem)
    (h : parse_space s = some (u, r)) : r.length < s.length := by
  simp only [parse_space] at h
  split at h
  · cases s with
    | nil => exact absurd h (by simp)
    | cons c rest =>
      simp only at h
      split at h
      · simp only [Option.some.injEq, Prod.mk.injEq] at h
        rw [← h.2]
        simp
      · exact absurd h (by simp)
  · rename_i hne
    cases s with
    | nil => simp [List.takeWhile] at hne
    | cons c rest =>
      simp only [Option.some.injEq, Prod.mk.injEq] at h
      rw [← h.2]
      have hc : isSpaceTab c = true := by
        by_contra hcc
        simp only [Bool.not_eq_true] at hcc
        simp [List.takeWhile, hcc] at hne
      have : (c :: rest).dropWhile isSpaceTab = rest.dropWhile isSpaceTab := by
        simp [List.dropWhile, hc]
      rw [this]
      have := (List.dropWhile_suffix (l := rest) isSpaceTab).length_le
      simp only [List.length_cons]
      omega

/-! ### Generic lemmas about the embedded nom combinators -/

theorem many0F_step_none {α : Type} (p : Nat → Rem → Option (α × Rem)) (f : Nat) (s : Rem)
    (h : p (f + 1) s = none) : many0F p (f + 1) s = some ([], s) := by
  simp [many0F, h]

theorem many0F_step_some {α : Type} (p : Nat → Rem → Option (α × Rem)) (f : Nat) (s : Rem)
    (a : α) (r : Rem) (h : p (f + 1) s = some (a, r)) :
    many0F p (f + 1) s =
      if r.length = s.length then none
      else (many0F p f r).map (fun q => (a :: q.1, q.2)) := by
  simp [many0F, h]

theorem many0F_suffix {α : Type} (p : Nat → Rem → Option (α × Rem))
    (hp : ∀ f s a r, p f s = some (a, r) → r <:+ s) :
    ∀ (f : Nat) (s : Rem) (l : List α) (r : Rem),
      many0F p f s = some (l, r) → r <:+ s
  | 0, s, l, r => by intro h; simp [many0F] at h
  | f + 1, s, l, r => by
    intro h
    cases hps : p (f + 1) s with
    | none =>
      rw [many0F_step_none p f s hps] at h
      simp only [Option.some.injEq, Prod.mk.injEq] at h
      obtain ⟨hl, hr⟩ := h
      subst hr
      exact List.suffix_refl _
    | some ar =>
      obtain ⟨a, r0⟩ := ar
      rw [many0F_step_some p f s a r0 hps] at h
      split at h
      · exact absurd h (by simp)
      · cases hrec : many0F p f r0 with
        | none => rw [hrec] at h; exact absurd h (by simp)
        | some q =>
          obtain ⟨l2, r2⟩ := q
          rw [hrec] at h
          simp only [Option.map_some', Option.some.injEq, Prod.mk.injEq] at h
          obtain ⟨hl, hr⟩ := h
          subst hr
          exact (many0F_suffix p hp f r0 l2 r2 hrec).trans (hp (f + 1) s a r0 hps)

theorem many0F_irrel {α : Type} (p : Nat → Rem → Option (α × Rem))
    (hps : ∀ f s a r, p f s = some (a, r) → r <:+ s)
    (hpi : ∀ f1 f2 s, s.length < f1 → s.length < f2 → p f1 s = p f2 s) :
    ∀ (f1 f2 : Nat) (s : Rem), s.length < f1 → s.length < f2 →
      many0F p f1 s = many0F p f2 s
  | 0, _, s => by intro h1 h2; exact absurd h1 (Nat.not_lt_zero _)
  | _ + 1, 0, s => by intro h1 h2; exact absurd h2 (Nat.not_lt_zero _)
  | f1 + 1, f2 + 1, s => by
    intro h1 h2
    have hpp : p (f1 + 1) s = p (f2 + 1) s := hpi _ _ s h1 h2
    cases hps2 : p (f2 + 1) s with
    | none =>
      rw [many0F_step_none p f1 s (hpp.trans hps2), many0F_step_none p f2 s hps2]
    | some ar =>
      obtain ⟨a, r0⟩ := ar
      rw [many0F_step_some p f1 s a r0 (hpp.trans hps2),
        many0F_step_some p f2 s a r0 hps2]
      by_cases hlen : r0.length = s.length
      · simp [hlen]
      · have hsuf := (hps (f2 + 1) s a r0 hps2).length_le
        have hrec : many0F p f1 r0 = many0F p f2 r0 :=
          many0F_irrel p hps hpi f1 f2 r0 (by omega) (by omega)
        simp [hlen, hrec]

theorem many0F_total {α : Type} (p : Nat → Rem → Option (α × Rem))
    (hstrict : ∀ f s a r, p f s = some (a, r) → r.length < s.length) :
    ∀ (f : Nat) (s : Rem), s.length < f → ∃ l r, many0F p f s = some (l, r)
  | 0, s => by intro h; exact absurd h (Nat.not_lt_zero _)
  | f + 1, s => by
    intro h
    cases hps : p (f + 1) s with
    | none => exact ⟨[], s, many0F_step_none p f s hps⟩
    | some ar =>
      obtain ⟨a, r0⟩ := ar
      have hlt := hstrict _ _ _ _ hps
      obtain ⟨l2, r2, hrec⟩ := many0F_total p hstrict f r0 (by omega)
      refine ⟨a :: l2, r2, ?_⟩
      rw [many0F_step_some p f s a r0 hps, if_neg (by omega), hrec]
      simp

/-- At the position where `many0` stops, the element parser fails. -/
theorem many0F_rest {α : Type} (p : Nat → Rem → Option (α × Rem))
    (hps : ∀ f s a r, p f s = some (a, r) → r <:+ s)
    (hpi : ∀ f1 f2 s, s.length < f1 → s.length < f2 → p f1 s = p f2 s) :
    ∀ (f : Nat) (s : Rem) (l : List α) (r : Rem), s.length < f →
      many0F p f s = some (l, r) → p (r.length + 1) r = none
  | 0, s, l, r => by intro h1 h; exact absurd h1 (Nat.not_lt_zero _)
  | f + 1, s, l, r => by
    intro h1 h
    cases hps2 : p (f + 1) s with
    | none =>
      rw [many0F_step_none p f s hps2] at h
      simp only [Option.some.injEq, Prod.mk.injEq] at h
      obtain ⟨hl, hr⟩ := h
      subst hr
      rw [hpi (s.length + 1) (f + 1) s (by omega) h1]
      exact hps2
    | some ar =>
      obtain ⟨a, r0⟩ := ar
      rw [many0F_step_some p f s a r0 hps2] at h
      split at h
      · exact absurd h (by simp)
      · rename_i hlen
        cases hrec : many0F p f r0 with
        | none => rw [hrec] at h; exact absurd h (by simp)
        | some q =>
          obtain ⟨l2, r2⟩ := q
          rw [hrec] at h
          simp only [Option.map_some', Option.some.injEq, Prod.mk.injEq] at h
          obtain ⟨hl, hr⟩ := h
          subst hr
          have hsuf := (hps (f + 1) s a r0 hps2).length_le
          exact many0F_rest p hps hpi f r0 l2 r2 (by omega) hrec

/-- Every element of a `many0` result is produced by the element parser. -/
theorem many0F_elems {α : Type} (p : Nat → Rem → Option (α × Rem)) (Q : α → Prop)
    (hQ : ∀ f s a r, p f s = some (a, r) → Q a) :
    ∀ (f : Nat) (s : Rem) (l : List α) (r : Rem),
      many0F p f s = some (l, r) → ∀ a ∈ l, Q a
  | 0, s, l, r => by intro h; simp [many0F] at h
  | f + 1, s, l, r => by
    intro h a ha
    cases hps : p (f + 1) s with
    | none =>
      rw [many0F_step_none p f s hps] at h
      simp only [Option.some.injEq, Prod.mk.injEq] at h
      obtain ⟨hl, hr⟩ := h
      subst hl
      simp at ha
    | some ar =>
      obtain ⟨a0, r0⟩ := ar
      rw [many0F_step_some p f s a0 r0 hps] at h
      split at h
      · exact absurd h (by simp)
      · cases hrec : many0F p f r0 with
        | none => rw [hrec] at h; exact absurd h (by simp)
        | some q =>
          obtain ⟨l2, r2⟩ := q
          rw [hrec] at h
          simp only [Option.map_some', Option.some.injEq, Prod.mk.injEq] at h
          obtain ⟨hl, hr⟩ := h
          subst hl
          rcases List.mem_cons.mp ha with h1 | h2
          · subst h1; exact hQ _ _ _ _ hps
          · exact many0F_elems p Q hQ f r0 l2 r2 hrec a h2

theorem sepLoopF_step_nil {α : Type} (p : Nat → Rem → Option (α × Rem)) (sep : Char) (f : Nat) :
    sepLoopF p sep (f + 1) [] = some ([], []) := by
  simp [sepLoopF]

theorem sepLoopF_step_nosep {α : Type} (p : Nat → Rem → Option (α × Rem)) (sep : Char)
    (f : Nat) (c : Char) (i1 : Rem) (hc : c ≠ sep) :
    sepLoopF p sep (f + 1) (c :: i1) = some ([], c :: i1) := by
  simp [sepLoopF, hc]

theorem sepLoopF_step_sep_none {α : Type} (p : Nat → Rem → Option (α × Rem)) (sep : Char)
    (f : Nat) (i1 : Rem) (h : p (f + 1) i1 = none) :
    sepLoopF p sep (f + 1) (sep :: i1) = some ([], sep :: i1) := by
  simp [sepLoopF, h]

theorem sepLoopF_step_sep_some {α : Type} (p : Nat → Rem → Option (α × Rem)) (sep : Char)
    (f : Nat) (i1 : Rem) (a : α) (i2 : Rem) (h : p (f + 1) i1 = some (a, i2)) :
    sepLoopF p sep (f + 1) (sep :: i1) =
      (sepLoopF p sep f i2).map (fun q => (a :: q.1, q.2)) := by
  simp [sepLoopF, h]

theorem sepLoopF_suffix {α : Type} (p : Nat → Rem → Option (α × Rem)) (sep : Char)
    (hp : ∀ f s a r, p f s = some (a, r) → r <:+ s) :
    ∀ (f : Nat) (i : Rem) (l : List α) (r : Rem),
      sepLoopF p sep f i = some (l, r) → r <:+ i
  | 0, i, l, r => by intro h; simp [sepLoopF] at h
  | f + 1, [], l, r => by
    intro h
    rw [sepLoopF_step_nil] at h
    simp only [Option.some.injEq, Prod.mk.injEq] at h
    obtain ⟨hl, hr⟩ := h
    subst hr
    exact List.suffix_refl _
  | f + 1, c :: i1, l, r => by
    intro h
    by_cases hc : c = sep
    · subst hc
      cases hpp : p (f + 1) i1 with
      | none =>
        rw [sepLoopF_step_sep_none p c f i1 hpp] at h
        simp only [Option.some.injEq, Prod.mk.injEq] at h
        obtain ⟨hl, hr⟩ := h
        subst hr
        exact List.suffix_refl _
      | some ai =>
        obtain ⟨a, i2⟩ := ai
        rw [sepLoopF_step_sep_some p c f i1 a i2 hpp] at h
        cases hrec : sepLoopF p c f i2 with
        | none => rw [hrec] at h; exact absurd h (by simp)
        | some q =>
          obtain ⟨l2, r2⟩ := q
          rw [hrec] at h
          simp only [Option.map_some', Option.some.injEq, Prod.mk.injEq] at h
          obtain ⟨hl, hr⟩ := h
          subst hr
          exact ((sepLoopF_suffix p c hp f i2 l2 r2 hrec).trans
            (hp (f + 1) i1 a i2 hpp)).trans (List.suffix_cons c i1)
    · rw [sepLoopF_step_nosep p sep f c i1 hc] at h
      simp only [Option.some.injEq, Prod.mk.injEq] at h
      obtain ⟨hl, hr⟩ := h
      subst hr
      exact List.suffix_refl _

theorem sepLoopF_irrel {α : Type} (p : Nat → Rem → Option (α × Rem)) (sep : Char)
    (hps : ∀ f s a r, p f s = some (a, r) → r <:+ s)
    (hpi : ∀ f1 f2 s, s.length < f1 → s.length < f2 → p f1 s = p f2 s) :
    ∀ (f1 f2 : Nat) (i : Rem), i.length < f1 → i.length < f2 →
      sepLoopF p sep f1 i = sepLoopF p sep f2 i
  | 0, _, i => by intro h1 h2; exact absurd h1 (Nat.not_lt_zero _)
  | _ + 1, 0, i => by intro h1 h2; exact absurd h2 (Nat.not_lt_zero _)
  | f1 + 1, f2 + 1, [] => by intro h1 h2; rw [sepLoopF_step_nil, sepLoopF_step_nil]
  | f1 + 1, f2 + 1, c :: i1 => by
    intro h1 h2
    by_cases hc : c = sep
    · subst hc
      simp only [List.length_cons] at h1 h2
      have hpp : p (f1 + 1) i1 = p (f2 + 1) i1 := hpi _ _ i1 (by omega) (by omega)
      cases hps2 : p (f2 + 1) i1 with
      | none =>
        rw [sepLoopF_step_sep_none p c f1 i1 (hpp.trans hps2),
          sepLoopF_step_sep_none p c f2 i1 hps2]
      | some ai =>
        obtain ⟨a, i2⟩ := ai
        rw [sepLoopF_step_sep_some p c f1 i1 a i2 (hpp.trans hps2),
          sepLoopF_step_sep_some p c f2 i1 a i2 hps2]
        have hsuf := (hps (f2 + 1) i1 a i2 hps2).length_le
        have hrec : sepLoopF p c f1 i2 = sepLoopF p c f2 i2 :=
          sepLoopF_irrel p c hps hpi f1 f2 i2 (by omega) (by omega)
        rw [hrec]
    · rw [sepLoopF_step_nosep p sep f1 c i1 hc, sepLoopF_step_nosep p sep f2 c i1 hc]

theorem sepLoopF_total {α : Type} (p : Nat → Rem → Option (α × Rem)) (sep : Char)
    (hps : ∀ f s a r, p f s = some (a, r) → r <:+ s)
    (hpt : ∀ f s, s.length < f → ∃ a r, p f s = some (a, r)) :
    ∀ (f : Nat) (i : Rem), i.length < f → ∃ l r, sepLoopF p sep f i = some (l, r)
  | 0, i => by intro h; exact absurd h (Nat.not_lt_zero _)
  | f + 1, [] => by intro h; exact ⟨[], [], sepLoopF_step_nil p sep f⟩
  | f + 1, c :: i1 => by
    intro h
    by_cases hc : c = sep
    · subst hc
      simp only [List.length_cons] at h
      obtain ⟨a, i2, hpp⟩ := hpt (f + 1) i1 (by omega)
      have hsuf := (hps (f + 1) i1 a i2 hpp).length_le
      obtain ⟨l2, r2, hrec⟩ := sepLoopF_total p c hps hpt f i2 (by omega)
      refine ⟨a :: l2, r2, ?_⟩
      rw [sepLoopF_step_sep_some p c f i1 a i2 hpp, hrec]
      simp
    · exact ⟨[], c :: i1, sepLoopF_step_nosep p sep f c i1 hc⟩

theorem sepList0F_step_none {α : Type} (p : Nat → Rem → Option (α × Rem)) (sep : Char)
    (f : Nat) (s : Rem) (h : p (f + 1) s = none) :
    sepList0F p sep (f + 1) s = some ([], s) := by
  simp [sepList0F, h]

theorem sepList0F_step_some {α : Type} (p : Nat → Rem → Option (α × Rem)) (sep : Char)
    (f : Nat) (s : Rem) (a : α) (i : Rem) (h : p (f + 1) s = some (a, i)) :
    sepList0F p sep (f + 1) s =
      (sepLoopF p sep (f + 1) i).map (fun q => (a :: q.1, q.2)) := by
  simp [sepList0F, h]

theorem sepList0F_suffix {α : Type} (p : Nat → Rem → Option (α × Rem)) (sep : Char)
    (hp : ∀ f s a r, p f s = some (a, r) → r <:+ s)
    (f : Nat) (s : Rem) (l : List α) (r : Rem)
    (h : sepList0F p sep f s = some (l, r)) : r <:+ s := by
  cases f with
  | zero => simp [sepList0F] at h
  | succ f =>
    cases hps : p (f + 1) s with
    | none =>
      rw [sepList0F_step_none p sep f s hps] at h
      simp only [Option.some.injEq, Prod.mk.injEq] at h
      obtain ⟨hl, hr⟩ := h
      subst hr
      exact List.suffix_refl _
    | some ai =>
      obtain ⟨a, i⟩ := ai
      rw [sepList0F_step_some p sep f s a i hps] at h
      cases hloop : sepLoopF p sep (f + 1) i with
      | none => rw [hloop] at h; exact absurd h (by simp)
      | some q =>
        obtain ⟨l2, r2⟩ := q
        rw [hloop] at h
        simp only [Option.map_some', Option.some.injEq, Prod.mk.injEq] at h
        obtain ⟨hl, hr⟩ := h
        subst hr
        exact (sepLoopF_suffix p sep hp (f + 1) i l2 r2 hloop).trans (hp (f + 1) s a i hps)

theorem sepList0F_irrel {α : Type} (p : Nat → Rem → Option (α × Rem)) (sep : Char)
    (hps : ∀ f s a r, p f s = some (a, r) → r <:+ s)
    (hpi : ∀ f1 f2 s, s.length < f1 → s.length < f2 → p f1 s = p f2 s)
    (f1 f2 : Nat) (s : Rem) (h1 : s.length < f1) (h2 : s.length < f2) :
    sepList0F p sep f1 s = sepList0F p sep f2 s := by
  cases f1 with
  | zero => exact absurd h1 (Nat.not_lt_zero _)
  | succ f1 =>
    cases f2 with
    | zero => exact absurd h2 (Nat.not_lt_zero _)
    | succ f2 =>
      have hpp : p (f1 + 1) s = p (f2 + 1) s := hpi _ _ s h1 h2
      cases hps2 : p (f2 + 1) s with
      | none =>
        rw [sepList0F_step_none p sep f1 s (hpp.trans hps2),
          sepList0F_step_none p sep f2 s hps2]
      | some ai =>
        obtain ⟨a, i⟩ := ai
        rw [sepList0F_step_some p sep f1 s a i (hpp.trans hps2),
          sepList0F_step_some p sep f2 s a i hps2]
        have hsuf := (hps (f2 + 1) s a i hps2).length_le
        rw [sepLoopF_irrel p sep hps hpi (f1 + 1) (f2 + 1) i (by omega) (by omega)]

theorem sepList0F_total {α : Type} (p : Nat → Rem → Option (α × Rem)) (sep : Char)
    (hps : ∀ f s a r, p f s = some (a, r) → r <:+ s)
    (hpt : ∀ f s, s.length < f → ∃ a r, p f s = some (a, r))
    (f : Nat) (s : Rem) (h : s.length < f) :
    ∃ l r, sepList0F p sep f s = some (l, r) := by
  cases f with
  | zero => exact absurd h (Nat.not_lt_zero _)
  | succ f =>
    obtain ⟨a, i, hpp⟩ := hpt (f + 1) s h
    have hsuf := (hps (f + 1) s a i hpp).length_le
    obtain ⟨l2, r2, hloop⟩ := sepLoopF_total p sep hps hpt (f + 1) i (by omega)
    refine ⟨a :: l2, r2, ?_⟩
    rw [sepList0F_step_some p sep f s a i hpp, hloop]
    simp

/-! ### Lemmas about the SubUnit-level parsers -/

theorem many0_tags_suffix (f : Nat) (s : Rem) (l : List (List Char)) (r : Rem)
    (h : many0_tags f s = some (l, r)) : r <:+ s :=
  many0F_suffix (fun _ s => parse_tag s) (fun _ s a r h => parse_tag_suffix s a r h) f s l r h

theorem many0_tags_irrel (f1 f2 : Nat) (s : Rem) (h1 : s.length < f1) (h2 : s.length < f2) :
    many0_tags f1 s = many0_tags f2 s :=
  many0F_irrel (fun _ s => parse_tag s) (fun _ s a r h => parse_tag_suffix s a r h)
    (fun _ _ _ _ _ => rfl) f1 f2 s h1 h2

theorem many0_tags_total (f : Nat) (s : Rem) (h : s.length < f) :
    ∃ l r, many0_tags f s = some (l, r) :=
  many0F_total (fun _ s => parse_tag s) (fun _ s a r h => parse_tag_strict s a r h) f s h

theorem parse_sub_lu_basicF_suffix (f : Nat) (s : Rem) (u : SubLU) (r : Rem)
    (h : parse_sub_lu_basicF f s = some (u, r)) : r <:+ s := by
  simp only [parse_sub_lu_basicF] at h
  cases hesc : ling_form_escape_parse (parse_flag s).2 with
  | none => rw [hesc] at h; simp at h
  | some p =>
    obtain ⟨lf, s2⟩ := p
    rw [hesc] at h
    simp only [Option.some_bind] at h
    cases htags : many0_tags f s2 with
    | none => rw [htags] at h; simp at h
    | some q =>
      obtain ⟨tags, s3⟩ := q
      rw [htags] at h
      simp only [Option.map_some', Option.some.injEq, Prod.mk.injEq] at h
      obtain ⟨hu, hr⟩ := h
      subst hr
      exact ((many0_tags_suffix f s2 tags s3 htags).trans
        (ling_form_escape_parse_suffix _ lf s2 hesc)).trans (parse_flag_suffix s)

theorem parse_sub_lu_basicF_irrel (f1 f2 : Nat) (s : Rem)
    (h1 : s.length < f1) (h2 : s.length < f2) :
    parse_sub_lu_basicF f1 s = parse_sub_lu_basicF f2 s := by
  simp only [parse_sub_lu_basicF]
  cases hesc : ling_form_escape_parse (parse_flag s).2 with
  | none => rfl
  | some p =>
    obtain ⟨lf, s2⟩ := p
    have hs2 : s2 <:+ s :=
      (ling_form_escape_parse_suffix _ lf s2 hesc).trans (parse_flag_suffix s)
    have := hs2.length_le
    simp only [Option.some_bind]
    rw [many0_tags_irrel f1 f2 s2 (by omega) (by omega)]

theorem parse_sub_lu_without_ling_formF_suffix (f : Nat) (s : Rem) (u : SubLU) (r : Rem)
    (h : parse_sub_lu_without_ling_formF f s = some (u, r)) : r <:+ s := by
  simp only [parse_sub_lu_without_ling_formF] at h
  cases htags : many0_tags f (parse_flag s).2 with
  | none => rw [htags] at h; simp at h
  | some q =>
    obtain ⟨tags, s2⟩ := q
    rw [htags] at h
    simp only [Option.map_some', Option.some.injEq, Prod.mk.injEq] at h
    obtain ⟨hu, hr⟩ := h
    subst hr
    exact (many0_tags_suffix f _ tags s2 htags).trans (parse_flag_suffix s)

theorem parse_sub_lu_without_ling_formF_irrel (f1 f2 : Nat) (s : Rem)
    (h1 : s.length < f1) (h2 : s.length < f2) :
    parse_sub_lu_without_ling_formF f1 s = parse_sub_lu_without_ling_formF f2 s := by
  simp only [parse_sub_lu_without_ling_formF]
  have := (parse_flag_suffix s).length_le
  rw [many0_tags_irrel f1 f2 (parse_flag s).2 (by omega) (by omega)]

/-- The flag-and-tags-only SubUnit shape always succeeds (given enough fuel),
and always produces an empty `ling_form`. -/
theorem parse_sub_lu_without_ling_formF_total (f : Nat) (s : Rem) (h : s.length < f) :
    ∃ tags r, parse_sub_lu_without_ling_formF f s =
      some (⟨[], make_flag (parse_flag s).1, tags⟩, r) := by
  have := (parse_flag_suffix s).length_le
  obtain ⟨l, r, htags⟩ := many0_tags_total f (parse_flag s).2 (by omega)
  refine ⟨l, r, ?_⟩
  simp [parse_sub_lu_without_ling_formF, htags]

theorem parse_sub_luF_suffix (f : Nat) (s : Rem) (u : SubLU) (r : Rem)
    (h : parse_sub_luF f s = some (u, r)) : r <:+ s := by
  simp only [parse_sub_luF] at h
  cases hb : parse_sub_lu_basicF f s with
  | none =>
    rw [hb] at h
    exact parse_sub_lu_without_ling_formF_suffix f s u r h
  | some x =>
    rw [hb] at h
    simp only [Option.some.injEq] at h
    subst h
    exact parse_sub_lu_basicF_suffix f s u r hb

theorem parse_sub_luF_irrel (f1 f2 : Nat) (s : Rem)
    (h1 : s.length < f1) (h2 : s.length < f2) :
    parse_sub_luF f1 s = parse_sub_luF f2 s := by
  simp only [parse_sub_luF]
  rw [parse_sub_lu_basicF_irrel f1 f2 s h1 h2,
    parse_sub_lu_without_ling_formF_irrel f1 f2 s h1 h2]

/-- The parser `parse_sub_lu` never fails (given enough fuel): the flag-and-tags shape
is a catch-all. -/
theorem parse_sub_luF_total (f : Nat) (s : Rem) (h : s.length < f) :
    ∃ u r, parse_sub_luF f s = some (u, r) := by
  simp only [parse_sub_luF]
  cases hb : parse_sub_lu_basicF f s with
  | none =>
    obtain ⟨tags, r, hw⟩ := parse_sub_lu_without_ling_formF_total f s h
    exact ⟨_, r, hw⟩
  | some x => exact ⟨x.1, x.2, by simp⟩

/-! ### Lemmas about the unit-level parsers -/

theorem parse_basic_luF_inv (f : Nat) (s : Rem) (u : StreamUnit) (r : Rem)
    (h : parse_basic_luF f s = some (u, r)) :
    ∃ s1 l, s = '^' :: s1 ∧
      sepList0F parse_sub_luF '/' f s1 = some (l, '$' :: r) ∧
      u = StreamUnit.LexicalUnit l := by
  cases s with
  | nil => simp [parse_basic_luF] at h
  | cons c s1 =>
    simp only [parse_basic_luF] at h
    split at h
    · rename_i hc
      subst hc
      split at h
      · exact absurd h (by simp)
      · rename_i l r0 heq
        split at h
        · exact absurd h (by simp)
        · rename_i c2 r1 heq2
          split at h
          · rename_i hc2
            subst hc2
            simp only [Option.some.injEq, Prod.mk.injEq] at h
            obtain ⟨hu, hr⟩ := h
            subst hr
            subst hu
            exact ⟨s1, l, rfl, heq, rfl⟩
          · exact absurd h (by simp)
    · exact absurd h (by simp)

theorem parse_joined_luF_inv (f : Nat) (s : Rem) (u : StreamUnit) (r : Rem)
    (h : parse_joined_luF f s = some (u, r)) :
    ∃ s1 l, s = '^' :: s1 ∧
      sepList0F (sepList0F parse_sub_luF '+') '/' f s1 = some (l, '$' :: r) ∧
      u = StreamUnit.JoinedLexicalUnit l := by
  cases s with
  | nil => simp [parse_joined_luF] at h
  | cons c s1 =>
    simp only [parse_joined_luF] at h
    split at h
    · rename_i hc
      subst hc
      split at h
      · exact absurd h (by simp)
      · rename_i l r0 heq
        split at h
        · exact absurd h (by simp)
        · rename_i c2 r1 heq2
          split at h
          · rename_i hc2
            subst hc2
            simp only [Option.some.injEq, Prod.mk.injEq] at h
            obtain ⟨hu, hr⟩ := h
            subst hr
            subst hu
            exact ⟨s1, l, rfl, heq, rfl⟩
          · exact absurd h (by simp)
    · exact absurd h (by simp)

theorem parse_chunkF_inv (f : Nat) (s : Rem) (u : StreamUnit) (r : Rem)
    (h : parse_chunkF f s = some (u, r)) :
    ∃ head r1 cs, parse_sub_luF f s = some (head, '{' :: r1) ∧
      many0F parse_lu_or_space_or_formatF f r1 = some (cs, '}' :: r) ∧
      u = StreamUnit.Chunk head cs := by
  simp only [parse_chunkF] at h
  split at h
  · exact absurd h (by simp)
  · rename_i head r0 hsub
    split at h
    · exact absurd h (by simp)
    · rename_i c r1 hr0
      split at h
      · rename_i hc
        subst hc
        split at h
        · exact absurd h (by simp)
        · rename_i cs r2 hcs
          split at h
          · exact absurd h (by simp)
          · rename_i c2 r3 hr2
            split at h
            · rename_i hc2
              subst hc2
              simp only [Option.some.injEq, Prod.mk.injEq] at h
              obtain ⟨hu, hr⟩ := h
              subst hr
              subst hu
              exact ⟨head, _, cs, hsub, hcs, rfl⟩
            · exact absurd h (by simp)
      · exact absurd h (by simp)

theorem parse_basic_luF_suffix (f : Nat) (s : Rem) (u : StreamUnit) (r : Rem)
    (h : parse_basic_luF f s = some (u, r)) : r <:+ s := by
  obtain ⟨s1, l, hs, hsep, hu⟩ := parse_basic_luF_inv f s u r h
  subst hs
  have := sepList0F_suffix parse_sub_luF '/' parse_sub_luF_suffix f s1 l ('$' :: r) hsep
  exact ((List.suffix_cons '$' r).trans this).trans (List.suffix_cons '^' s1)

theorem parse_basic_luF_strict (f : Nat) (s : Rem) (u : StreamUnit) (r : Rem)
    (h : parse_basic_luF f s = some (u, r)) : r.length < s.length := by
  obtain ⟨s1, l, hs, hsep, hu⟩ := parse_basic_luF_inv f s u r h
  subst hs
  have := (sepList0F_suffix parse_sub_luF '/' parse_sub_luF_suffix f s1 l ('$' :: r) hsep).length_le
  simp only [List.length_cons] at this ⊢
  omega

theorem parse_basic_luF_irrel (f1 f2 : Nat) (s : Rem)
    (h1 : s.length < f1) (h2 : s.length < f2) :
    parse_basic_luF f1 s = parse_basic_luF f2 s := by
  cases s with
  | nil => rfl
  | cons c s1 =>
    simp only [parse_basic_luF]
    simp only [List.length_cons] at h1 h2
    rw [sepList0F_irrel parse_sub_luF '/' parse_sub_luF_suffix parse_sub_luF_irrel
      f1 f2 s1 (by omega) (by omega)]

theorem parse_joined_luF_suffix (f : Nat) (s : Rem) (u : StreamUnit) (r : Rem)
    (h : parse_joined_luF f s = some (u, r)) : r <:+ s := by
  obtain ⟨s1, l, hs, hsep, hu⟩ := parse_joined_luF_inv f s u r h
  subst hs
  have := sepList0F_suffix (sepList0F parse_sub_luF '+') '/'
    (sepList0F_suffix parse_sub_luF '+' parse_sub_luF_suffix) f s1 l ('$' :: r) hsep
  exact ((List.suffix_cons '$' r).trans this).trans (List.suffix_cons '^' s1)

theorem parse_joined_luF_strict (f : Nat) (s : Rem) (u : StreamUnit) (r : Rem)
    (h : parse_joined_luF f s = some (u, r)) : r.length < s.length := by
  obtain ⟨s1, l, hs, hsep, hu⟩ := parse_joined_luF_inv f s u r h
  subst hs
  have := (sepList0F_suffix (sepList0F parse_sub_luF '+') '/'
    (sepList0F_suffix parse_sub_luF '+' parse_sub_luF_suffix) f s1 l ('$' :: r) hsep).length_le
  simp only [List.length_cons] at this ⊢
  omega

theorem parse_joined_luF_irrel (f1 f2 : Nat) (s : Rem)
    (h1 : s.length < f1) (h2 : s.length < f2) :
    parse_joined_luF f1 s = parse_joined_luF f2 s := by
  cases s with
  | nil => rfl
  | cons c s1 =>
    simp only [parse_joined_luF]
    simp only [List.length_cons] at h1 h2
    rw [sepList0F_irrel (sepList0F parse_sub_luF '+') '/'
      (sepList0F_suffix parse_sub_luF '+' parse_sub_luF_suffix)
      (sepList0F_irrel parse_sub_luF '+' parse_sub_luF_suffix parse_sub_luF_irrel)
      f1 f2 s1 (by omega) (by omega)]

theorem parse_lu_or_space_or_formatF_suffix (f : Nat) (s : Rem) (u : StreamUnit) (r : Rem)
    (h : parse_lu_or_space_or_formatF f s = some (u, r)) : r <:+ s := by
  simp only [parse_lu_or_space_or_formatF] at h
  split at h
  · rename_i x hf
    simp only [Option.some.injEq] at h
    subst h
    exact parse_format_suffix s u r hf
  · split at h
    · rename_i x hb
      simp only [Option.some.injEq] at h
      subst h
      exact parse_basic_luF_suffix f s u r hb
    · split at h
      · rename_i x hj
        simp only [Option.some.injEq] at h
        subst h
        exact parse_joined_luF_suffix f s u r hj
      · exact parse_space_suffix s u r h

theorem parse_lu_or_space_or_formatF_strict (f : Nat) (s : Rem) (u : StreamUnit) (r : Rem)
    (h : parse_lu_or_space_or_formatF f s = some (u, r)) : r.length < s.length := by
  simp only [parse_lu_or_space_or_formatF] at h
  split at h
  · rename_i x hf
    simp only [Option.some.injEq] at h
    subst h
    exact parse_format_strict s u r hf
  · split at h
    · rename_i x hb
      simp only [Option.some.injEq] at h
      subst h
      exact parse_basic_luF_strict f s u r hb
    · split at h
      · rename_i x hj
        simp only [Option.some.injEq] at h
        subst h
        exact parse_joined_luF_strict f s u r hj
      · exact parse_space_strict s u r h

theorem parse_lu_or_space_or_formatF_irrel (f1 f2 : Nat) (s : Rem)
    (h1 : s.length < f1) (h2 : s.length < f2) :
    parse_lu_or_space_or_formatF f1 s = parse_lu_or_space_or_formatF f2 s := by
  simp only [parse_lu_or_space_or_formatF]
  rw [parse_basic_luF_irrel f1 f2 s h1 h2, parse_joined_luF_irrel f1 f2 s h1 h2]

theorem parse_chunkF_suffix (f : Nat) (s : Rem) (u : StreamUnit) (r : Rem)
    (h : parse_chunkF f s = some (u, r)) : r <:+ s := by
  obtain ⟨head, r1, cs, hsub, hcs, hu⟩ := parse_chunkF_inv f s u r h
  have h1 := parse_sub_luF_suffix f s head ('{' :: r1) hsub
  have h2 := many0F_suffix parse_lu_or_space_or_formatF parse_lu_or_space_or_formatF_suffix
    f r1 cs ('}' :: r) hcs
  exact (((List.suffix_cons '}' r).trans h2).trans ((List.suffix_cons '{' r1).trans h1))

theorem parse_chunkF_strict (f : Nat) (s : Rem) (u : StreamUnit) (r : Rem)
    (h : parse_chunkF f s = some (u, r)) : r.length < s.length := by
  obtain ⟨head, r1, cs, hsub, hcs, hu⟩ := parse_chunkF_inv f s u r h
  have h1 := (parse_sub_luF_suffix f s head ('{' :: r1) hsub).length_le
  have h2 := (many0F_suffix parse_lu_or_space_or_formatF parse_lu_or_space_or_formatF_suffix
    f r1 cs ('}' :: r) hcs).length_le
  simp only [List.length_cons] at h1 h2
  omega

theorem parse_chunkF_irrel (f1 f2 : Nat) (s : Rem)
    (h1 : s.length < f1) (h2 : s.length < f2) :
    parse_chunkF f1 s = parse_chunkF f2 s := by
  simp only [parse_chunkF]
  rw [parse_sub_luF_irrel f1 f2 s h1 h2]
  cases hsub : parse_sub_luF f2 s with
  | none => rfl
  | some hr =>
    obtain ⟨head, r0⟩ := hr
    simp only
    cases r0 with
    | nil => rfl
    | cons c r1 =>
      simp only
      have hr0 : (c :: r1).length ≤ s.length :=
        (parse_sub_luF_suffix f2 s head (c :: r1) hsub).length_le
      simp only [List.length_cons] at hr0
      rw [many0F_irrel parse_lu_or_space_or_formatF parse_lu_or_space_or_formatF_suffix
        parse_lu_or_space_or_formatF_irrel f1 f2 r1 (by omega) (by omega)]

theorem parse_stream_unitF_suffix (f : Nat) (s : Rem) (u : StreamUnit) (r : Rem)
    (h : parse_stream_unitF f s = some (u, r)) : r <:+ s := by
  simp only [parse_stream_unitF] at h
  split at h
  · rename_i x hsp
    simp only [Option.some.injEq] at h
    subst h
    exact parse_space_suffix s u r hsp
  · split at h
    · rename_i x hf
      simp only [Option.some.injEq] at h
      subst h
      exact parse_format_suffix s u r hf
    · split at h
      · rename_i x hb
        simp only [Option.some.injEq] at h
        subst h
        exact parse_basic_luF_suffix f s u r hb
      · split at h
        · rename_i x hj
          simp only [Option.some.injEq] at h
          subst h
          exact parse_joined_luF_suffix f s u r hj
        · exact parse_chunkF_suffix f s u r h

/-- Every successful top-level alternative consumes at least one character. -/
theorem parse_stream_unitF_strict (f : Nat) (s : Rem) (u : StreamUnit) (r : Rem)
    (h : parse_stream_unitF f s = some (u, r)) : r.length < s.length := by
  simp only [parse_stream_unitF] at h
  split at h
  · rename_i x hsp
    simp only [Option.some.injEq] at h
    subst h
    exact parse_space_strict s u r hsp
  · split at h
    · rename_i x hf
      simp only [Option.some.injEq] at h
      subst h
      exact parse_format_strict s u r hf
    · split at h
      · rename_i x hb
        simp only [Option.some.injEq] at h
        subst h
        exact parse_basic_luF_strict f s u r hb
      · split at h
        · rename_i x hj
          simp only [Option.some.injEq] at h
          subst h
          exact parse_joined_luF_strict f s u r hj
        · exact parse_chunkF_strict f s u r h

theorem parse_stream_unitF_irrel (f1 f2 : Nat) (s : Rem)
    (h1 : s.length < f1) (h2 : s.length < f2) :
    parse_stream_unitF f1 s = parse_stream_unitF f2 s := by
  simp only [parse_stream_unitF]
  rw [parse_basic_luF_irrel f1 f2 s h1 h2, parse_joined_luF_irrel f1 f2 s h1 h2,
    parse_chunkF_irrel f1 f2 s h1 h2]

/-! ### Shape and failure lemmas -/

theorem parse_space_shape (s : Rem) (u : StreamUnit) (r : Rem)
    (h : parse_space s = some (u, r)) : ∃ t, u = StreamUnit.Space t := by
  simp only [parse_space] at h
  split at h
  · cases s with
    | nil => exact absurd h (by simp)
    | cons c t =>
      simp only at h
      split at h
      · simp only [Option.some.injEq, Prod.mk.injEq] at h
        exact ⟨['\n'], h.1.symm⟩
      · exact absurd h (by simp)
  · simp only [Option.some.injEq, Prod.mk.injEq] at h
    exact ⟨_, h.1.symm⟩

theorem parse_format_shape (s : Rem) (u : StreamUnit) (r : Rem)
    (h : parse_format s = some (u, r)) : ∃ t, u = StreamUnit.Format t := by
  cases s with
  | nil => exact absurd h (by simp [parse_format])
  | cons c t =>
    simp only [parse_format] at h
    split at h
    · cases hgo : format_go [] t with
      | none => rw [hgo] at h; exact absurd h (by simp)
      | some p =>
        rw [hgo] at h
        simp only [Option.map_some', Option.some.injEq, Prod.mk.injEq] at h
        exact ⟨p.1, h.1.symm⟩
    · exact absurd h (by simp)

theorem parse_lu_or_space_or_formatF_shape (f : Nat) (s : Rem) (u : StreamUnit) (r : Rem)
    (h : parse_lu_or_space_or_formatF f s = some (u, r)) :
    (∃ l, u = StreamUnit.LexicalUnit l) ∨ (∃ ls, u = StreamUnit.JoinedLexicalUnit ls) ∨
    (∃ t, u = StreamUnit.Format t) ∨ (∃ t, u = StreamUnit.Space t) := by
  simp only [parse_lu_or_space_or_formatF] at h
  split at h
  · rename_i x hf
    simp only [Option.some.injEq] at h
    subst h
    exact Or.inr (Or.inr (Or.inl (parse_format_shape s u r hf)))
  · split at h
    · rename_i x hb
      simp only [Option.some.injEq] at h
      subst h
      obtain ⟨s1, l, hs, hsep, hu⟩ := parse_basic_luF_inv f s u r hb
      exact Or.inl ⟨l, hu⟩
    · split at h
      · rename_i x hj
        simp only [Option.some.injEq] at h
        subst h
        obtain ⟨s1, l, hs, hsep, hu⟩ := parse_joined_luF_inv f s u r hj
        exact Or.inr (Or.inl ⟨l, hu⟩)
      · exact Or.inr (Or.inr (Or.inr (parse_space_shape s u r h)))

theorem parse_space_none (c : Char) (t : Rem) (h1 : isSpaceTab c = false) (h2 : c ≠ '\n') :
    parse_space (c :: t) = none := by
  simp [parse_space, List.takeWhile, h1, h2]

theorem parse_format_none (c : Char) (t : Rem) (h : c ≠ '[') :
    parse_format (c :: t) = none := by
  simp [parse_format, h]

theorem parse_basic_luF_none_head (f : Nat) (c : Char) (t : Rem) (h : c ≠ '^') :
    parse_basic_luF f (c :: t) = none := by
  simp [parse_basic_luF, h]

theorem parse_joined_luF_none_head (f : Nat) (c : Char) (t : Rem) (h : c ≠ '^') :
    parse_joined_luF f (c :: t) = none := by
  simp [parse_joined_luF, h]

/-- The lemma-text primitive fails outright when the input starts with an
unescapable reserved character. -/
theorem ling_form_escape_parse_stuck (c : Char) (t : Rem)
    (hres : c ∈ lingFormReserved) (hbs : c ≠ '\\') :
    ling_form_escape_parse (c :: t) = none := by
  cases t with
  | nil => simp [ling_form_escape_parse, escaped_transform_lf, hres, hbs]
  | cons d t2 => simp [ling_form_escape_parse, escaped_transform_lf, hres, hbs]

theorem parse_tag_none_head (c : Char) (t : Rem) (h : c ≠ '<') :
    parse_tag (c :: t) = none := by
  simp [parse_tag, h]

/-- On input headed by a reserved, non-flag, non-escape, non-tag-opening
character, `parse_sub_lu` succeeds via the fallback shape consuming nothing,
producing the empty SubUnit. -/
theorem parse_sub_luF_stuck (f : Nat) (c : Char) (t : Rem) (hf : 0 < f)
    (h1 : c ≠ '*') (h2 : c ≠ '#') (h3 : c ≠ '@')
    (hres : c ∈ lingFormReserved) (hbs : c ≠ '\\') (htag : c ≠ '<') :
    parse_sub_luF f (c :: t) = some (⟨[], Flag.Nothing, []⟩, c :: t) := by
  have hflag : parse_flag (c :: t) = ([], c :: t) := by
    simp [parse_flag, h1, h2, h3]
  obtain ⟨f0, rfl⟩ : ∃ f0, f = f0 + 1 := ⟨f - 1, by omega⟩
  have htags : many0_tags (f0 + 1) (c :: t) = some ([], c :: t) :=
    many0F_step_none (fun _ s => parse_tag s) f0 (c :: t) (parse_tag_none_head c t htag)
  simp [parse_sub_luF, parse_sub_lu_basicF, parse_sub_lu_without_ling_formF, hflag,
    ling_form_escape_parse_stuck c t hres hbs, htags, make_flag]

theorem parse_chunkF_none_after (f : Nat) (s : Rem) (head : SubLU) (c : Char) (r1 : Rem)
    (hsub : parse_sub_luF f s = some (head, c :: r1)) (hc : c ≠ '{') :
    parse_chunkF f s = none := by
  simp [parse_chunkF, hsub, hc]

/-- A `^`-opened unit with no `$` anywhere in the rest of the input cannot be
completed: the plain-LU parse fails at the closing delimiter. -/
theorem parse_basic_luF_none_no_dollar (f : Nat) (s1 : Rem)
    (hf : s1.length < f) (hnd : '$' ∉ s1) :
    parse_basic_luF f ('^' :: s1) = none := by
  obtain ⟨l, r, hsep⟩ := sepList0F_total parse_sub_luF '/' parse_sub_luF_suffix
    parse_sub_luF_total f s1 hf
  have hr : r <:+ s1 := sepList0F_suffix parse_sub_luF '/' parse_sub_luF_suffix f s1 l r hsep
  simp only [parse_basic_luF, if_pos rfl, hsep]
  cases r with
  | nil => rfl
  | cons c2 r1 =>
    have hc2 : c2 ∈ s1 := hr.subset (by simp)
    have : c2 ≠ '$' := fun hh => hnd (hh ▸ hc2)
    simp [this]

theorem parse_joined_luF_none_no_dollar (f : Nat) (s1 : Rem)
    (hf : s1.length < f) (hnd : '$' ∉ s1) :
    parse_joined_luF f ('^' :: s1) = none := by
  obtain ⟨l, r, hsep⟩ := sepList0F_total (sepList0F parse_sub_luF '+') '/'
    (sepList0F_suffix parse_sub_luF '+' parse_sub_luF_suffix)
    (fun f s h => sepList0F_total parse_sub_luF '+' parse_sub_luF_suffix
      parse_sub_luF_total f s h) f s1 hf
  have hr : r <:+ s1 := sepList0F_suffix (sepList0F parse_sub_luF '+') '/'
    (sepList0F_suffix parse_sub_luF '+' parse_sub_luF_suffix) f s1 l r hsep
  simp only [parse_joined_luF, if_pos rfl, hsep]
  cases r with
  | nil => rfl
  | cons c2 r1 =>
    have hc2 : c2 ∈ s1 := hr.subset (by simp)
    have : c2 ≠ '$' := fun hh => hnd (hh ▸ hc2)
    simp [this]

/-- An opened `^` unit with no `$` in its remainder fails as a stream unit:
none of the five top-level alternatives accepts it. -/
theorem parse_stream_unitF_unterminated (f : Nat) (s1 : Rem)
    (hf : s1.length < f) (hnd : '$' ∉ s1) :
    parse_stream_unitF f ('^' :: s1) = none := by
  have hf0 : 0 < f := by omega
  have hsub := parse_sub_luF_stuck f '^' s1 hf0 (by decide) (by decide) (by decide)
    (by decide) (by decide) (by decide)
  simp [parse_stream_unitF, parse_space_none '^' s1 (by decide) (by decide),
    parse_format_none '^' s1 (by decide),
    parse_basic_luF_none_no_dollar f s1 hf hnd,
    parse_joined_luF_none_no_dollar f s1 hf hnd,
    parse_chunkF_none_after f ('^' :: s1) ⟨[], Flag.Nothing, []⟩ '^' s1 hsub (by decide)]

/-! ### Stream-level lemmas -/

theorem parse_streamF_total (f : Nat) (s : Rem) (h : s.length < f) :
    ∃ l r, parse_streamF f s = some (l, r) :=
  many0F_total parse_stream_unitF parse_stream_unitF_strict f s h

theorem parse_streamF_suffix (f : Nat) (s : Rem) (l : List StreamUnit) (r : Rem)
    (h : parse_streamF f s = some (l, r)) : r <:+ s :=
  many0F_suffix parse_stream_unitF parse_stream_unitF_suffix f s l r h

theorem parse_streamF_rest (f : Nat) (s : Rem) (l : List StreamUnit) (r : Rem)
    (hf : s.length < f) (h : parse_streamF f s = some (l, r)) :
    parse_stream_unitF (r.length + 1) r = none :=
  many0F_rest parse_stream_unitF parse_stream_unitF_suffix parse_stream_unitF_irrel
    f s l r hf h

/-! ### Correspondence between the plain and joined bodies -/

/-- Inversion for a `+`-slot of at most one SubUnit: the slot is exactly one
`parse_sub_lu` result and the remainder does not start with `+`. -/
theorem sep_plus_slot_inv (f : Nat) (s : Rem) (l : List SubLU) (r : Rem)
    (hf : s.length < f)
    (h : sepList0F parse_sub_luF '+' f s = some (l, r)) (hlen : l.length ≤ 1) :
    ∃ u, l = [u] ∧ parse_sub_luF f s = some (u, r) ∧ ∀ i1, r ≠ '+' :: i1 := by
  cases f with
  | zero => exact absurd hf (Nat.not_lt_zero _)
  | succ f0 =>
    cases hsub : parse_sub_luF (f0 + 1) s with
    | none =>
      obtain ⟨u, r0, ht⟩ := parse_sub_luF_total (f0 + 1) s hf
      rw [ht] at hsub
      exact absurd hsub (by simp)
    | some ui =>
      obtain ⟨u, i⟩ := ui
      rw [sepList0F_step_some parse_sub_luF '+' f0 s u i hsub] at h
      cases hloop : sepLoopF parse_sub_luF '+' (f0 + 1) i with
      | none => rw [hloop] at h; exact absurd h (by simp)
      | some q =>
        obtain ⟨l2, r2⟩ := q
        rw [hloop] at h
        simp only [Option.map_some', Option.some.injEq, Prod.mk.injEq] at h
        obtain ⟨hl, hr⟩ := h
        subst hl
        subst hr
        have hl2 : l2 = [] := by
          cases l2 with
          | nil => rfl
          | cons a t => simp at hlen
        subst hl2
        have hi : i <:+ s := parse_sub_luF_suffix (f0 + 1) s u i hsub
        cases i with
        | nil =>
          rw [sepLoopF_step_nil] at hloop
          simp only [Option.some.injEq, Prod.mk.injEq] at hloop
          obtain ⟨h1, h2⟩ := hloop
          subst h2
          exact ⟨u, rfl, rfl, by intro i1 hcon; exact absurd hcon (by simp)⟩
        | cons c i1 =>
          by_cases hc : c = '+'
          · subst hc
            have hi1 : i1.length < f0 + 1 := by
              have := hi.length_le
              simp only [List.length_cons] at this
              omega
            obtain ⟨a, i2, hp2⟩ := parse_sub_luF_total (f0 + 1) i1 hi1
            rw [sepLoopF_step_sep_some parse_sub_luF '+' f0 i1 a i2 hp2] at hloop
            cases hloop2 : sepLoopF parse_sub_luF '+' f0 i2 with
            | none => rw [hloop2] at hloop; exact absurd hloop (by simp)
            | some q2 =>
              rw [hloop2] at hloop
              simp only [Option.map_some', Option.some.injEq, Prod.mk.injEq] at hloop
              exact absurd hloop.1 (by simp)
          · rw [sepLoopF_step_nosep parse_sub_luF '+' f0 c i1 hc] at hloop
            simp only [Option.some.injEq, Prod.mk.injEq] at hloop
            obtain ⟨h1, h2⟩ := hloop
            subst h2
            refine ⟨u, rfl, rfl, ?_⟩
            intro i1' hcon
            rw [List.cons.injEq] at hcon
            exact hc hcon.1

/-- If every slot of a run of the joined-body loop is a singleton, the
plain-body loop makes the same run. -/
theorem sepLoop_joined_to_basic : ∀ (f : Nat) (i : Rem) (ls : List (List SubLU)) (r : Rem),
    i.length < f →
    sepLoopF (sepList0F parse_sub_luF '+') '/' f i = some (ls, r) →
    (∀ l ∈ ls, l.length ≤ 1) →
    ∃ us, ls = us.map (fun u => [u]) ∧ sepLoopF parse_sub_luF '/' f i = some (us, r)
  | 0, i, ls, r => by intro hf; exact absurd hf (Nat.not_lt_zero _)
  | f + 1, [], ls, r => by
    intro hf h hlen
    rw [sepLoopF_step_nil] at h
    simp only [Option.some.injEq, Prod.mk.injEq] at h
    obtain ⟨h1, h2⟩ := h
    subst h1
    subst h2
    exact ⟨[], rfl, sepLoopF_step_nil parse_sub_luF '/' f⟩
  | f + 1, c :: i1, ls, r => by
    intro hf h hlen
    by_cases hc : c = '/'
    · subst hc
      have hi1 : i1.length < f + 1 := by
        simp only [List.length_cons] at hf
        omega
      obtain ⟨slot, i2, hp2⟩ := sepList0F_total parse_sub_luF '+' parse_sub_luF_suffix
        parse_sub_luF_total (f + 1) i1 hi1
      rw [sepLoopF_step_sep_some (sepList0F parse_sub_luF '+') '/' f i1 slot i2 hp2] at h
      cases hloop : sepLoopF (sepList0F parse_sub_luF '+') '/' f i2 with
      | none => rw [hloop] at h; exact absurd h (by simp)
      | some q =>
        obtain ⟨ls2, r2⟩ := q
        rw [hloop] at h
        simp only [Option.map_some', Option.some.injEq, Prod.mk.injEq] at h
        obtain ⟨hl, hr⟩ := h
        subst hl
        subst hr
        have hslot : slot.length ≤ 1 := hlen slot (by simp)
        obtain ⟨u, hu, hsub, hnp⟩ := sep_plus_slot_inv (f + 1) i1 slot i2 hi1 hp2 hslot
        have hi2 : i2.length < f := by
          have := (sepList0F_suffix parse_sub_luF '+' parse_sub_luF_suffix
            (f + 1) i1 slot i2 hp2).length_le
          simp only [List.length_cons] at hf
          omega
        obtain ⟨us2, hmap, hbasic⟩ := sepLoop_joined_to_basic f i2 ls2 r2 hi2 hloop
          (fun l hl => hlen l (by simp [hl]))
        refine ⟨u :: us2, by simp [hu, hmap], ?_⟩
        rw [sepLoopF_step_sep_some parse_sub_luF '/' f i1 u i2 hsub, hbasic]
        simp
    · rw [sepLoopF_step_nosep (sepList0F parse_sub_luF '+') '/' f c i1 hc] at h
      simp only [Option.some.injEq, Prod.mk.injEq] at h
      obtain ⟨h1, h2⟩ := h
      subst h1
      subst h2
      exact ⟨[], rfl, sepLoopF_step_nosep parse_sub_luF '/' f c i1 hc⟩

/-- If every slot of a successful joined-body parse is a singleton, the plain
body parses the same span into the unwrapped list. -/
theorem joined_body_to_basic (f : Nat) (s : Rem) (ls : List (List SubLU)) (r : Rem)
    (hf : s.length < f)
    (hj : sepList0F (sepList0F parse_sub_luF '+') '/' f s = some (ls, r))
    (hlen : ∀ l ∈ ls, l.length ≤ 1) :
    ∃ us, ls = us.map (fun u => [u]) ∧ sepList0F parse_sub_luF '/' f s = some (us, r) := by
  cases f with
  | zero => exact absurd hf (Nat.not_lt_zero _)
  | succ f0 =>
    obtain ⟨slot, i, hp2⟩ := sepList0F_total parse_sub_luF '+' parse_sub_luF_suffix
      parse_sub_luF_total (f0 + 1) s hf
    rw [sepList0F_step_some (sepList0F parse_sub_luF '+') '/' f0 s slot i hp2] at hj
    cases hloop : sepLoopF (sepList0F parse_sub_luF '+') '/' (f0 + 1) i with
    | none => rw [hloop] at hj; exact absurd hj (by simp)
    | some q =>
      obtain ⟨ls2, r2⟩ := q
      rw [hloop] at hj
      simp only [Option.map_some', Option.some.injEq, Prod.mk.injEq] at hj
      obtain ⟨hl, hr⟩ := hj
      subst hl
      subst hr
      have hslot : slot.length ≤ 1 := hlen slot (by simp)
      obtain ⟨u, hu, hsub, hnp⟩ := sep_plus_slot_inv (f0 + 1) s slot i hf hp2 hslot
      have hi : i.length < f0 + 1 := by
        have := (sepList0F_suffix parse_sub_luF '+' parse_sub_luF_suffix
          (f0 + 1) s slot i hp2).length_le
        omega
      obtain ⟨us2, hmap, hbasic⟩ := sepLoop_joined_to_basic (f0 + 1) i ls2 r2 hi hloop
        (fun l hl => hlen l (by simp [hl]))
      refine ⟨u :: us2, by simp [hu, hmap], ?_⟩
      rw [sepList0F_step_some parse_sub_luF '/' f0 s u i hsub, hbasic]
      simp

/-- A `+`-slot parsed from plus-free input is at most a singleton. -/
theorem sep_plus_no_plus (f : Nat) (s : Rem) (hf : s.length < f) (hnp : '+' ∉ s)
    (l : List SubLU) (r : Rem)
    (h : sepList0F parse_sub_luF '+' f s = some (l, r)) : l.length ≤ 1 := by
  cases f with
  | zero => exact absurd hf (Nat.not_lt_zero _)
  | succ f0 =>
    cases hsub : parse_sub_luF (f0 + 1) s with
    | none =>
      rw [sepList0F_step_none parse_sub_luF '+' f0 s hsub] at h
      simp only [Option.some.injEq, Prod.mk.injEq] at h
      obtain ⟨h1, h2⟩ := h
      subst h1
      simp
    | some ui =>
      obtain ⟨u, i⟩ := ui
      rw [sepList0F_step_some parse_sub_luF '+' f0 s u i hsub] at h
      have hi : i <:+ s := parse_sub_luF_suffix (f0 + 1) s u i hsub
      cases i with
      | nil =>
        rw [sepLoopF_step_nil] at h
        simp only [Option.map_some', Option.some.injEq, Prod.mk.injEq] at h
        obtain ⟨h1, h2⟩ := h
        subst h1
        simp
      | cons c i1 =>
        have hc : c ≠ '+' := by
          intro hcc
          exact hnp (hi.subset (by simp [hcc]))
        rw [sepLoopF_step_nosep parse_sub_luF '+' f0 c i1 hc] at h
        simp only [Option.map_some', Option.some.injEq, Prod.mk.injEq] at h
        obtain ⟨h1, h2⟩ := h
        subst h1
        simp

/-- On plus-free input, every slot of the joined-body loop is a singleton. -/
theorem sepLoop_joined_no_plus : ∀ (f : Nat) (i : Rem), i.length < f → '+' ∉ i →
    ∀ (ls : List (List SubLU)) (r : Rem),
      sepLoopF (sepList0F parse_sub_luF '+') '/' f i = some (ls, r) →
      ∀ l ∈ ls, l.length ≤ 1
  | 0, i => by intro hf; exact absurd hf (Nat.not_lt_zero _)
  | f + 1, [] => by
    intro hf hnp ls r h
    rw [sepLoopF_step_nil] at h
    simp only [Option.some.injEq, Prod.mk.injEq] at h
    obtain ⟨h1, h2⟩ := h
    subst h1
    simp
  | f + 1, c :: i1 => by
    intro hf hnp ls r h
    by_cases hc : c = '/'
    · subst hc
      have hi1 : i1.length < f + 1 := by
        simp only [List.length_cons] at hf
        omega
      obtain ⟨slot, i2, hp2⟩ := sepList0F_total parse_sub_luF '+' parse_sub_luF_suffix
        parse_sub_luF_total (f + 1) i1 hi1
      rw [sepLoopF_step_sep_some (sepList0F parse_sub_luF '+') '/' f i1 slot i2 hp2] at h
      cases hloop : sepLoopF (sepList0F parse_sub_luF '+') '/' f i2 with
      | none => rw [hloop] at h; exact absurd h (by simp)
      | some q =>
        obtain ⟨ls2, r2⟩ := q
        rw [hloop] at h
        simp only [Option.map_some', Option.some.injEq, Prod.mk.injEq] at h
        obtain ⟨hl, hr⟩ := h
        subst hl
        have hnp1 : '+' ∉ i1 := fun hm => hnp (by simp [hm])
        have hslot : slot.length ≤ 1 := sep_plus_no_plus (f + 1) i1 hi1 hnp1 slot i2 hp2
        have hsufi2 : i2 <:+ i1 := sepList0F_suffix parse_sub_luF '+' parse_sub_luF_suffix
          (f + 1) i1 slot i2 hp2
        have hi2 : i2.length < f := by
          have := hsufi2.length_le
          simp only [List.length_cons] at hf
          omega
        have hnp2 : '+' ∉ i2 := fun hm => hnp1 (hsufi2.subset hm)
        intro l hl
        rcases List.mem_cons.mp hl with h1 | h2
        · subst h1; exact hslot
        · exact sepLoop_joined_no_plus f i2 hi2 hnp2 ls2 r2 hloop l h2
    · rw [sepLoopF_step_nosep (sepList0F parse_sub_luF '+') '/' f c i1 hc] at h
      simp only [Option.some.injEq, Prod.mk.injEq] at h
      obtain ⟨h1, h2⟩ := h
      subst h1
      simp

/-- On plus-free input, every slot of a joined-body parse is a singleton. -/
theorem joined_body_no_plus (f : Nat) (s : Rem) (hf : s.length < f) (hnp : '+' ∉ s)
    (ls : List (List SubLU)) (r : Rem)
    (hj : sepList0F (sepList0F parse_sub_luF '+') '/' f s = some (ls, r)) :
    ∀ l ∈ ls, l.length ≤ 1 := by
  cases f with
  | zero => exact absurd hf (Nat.not_lt_zero _)
  | succ f0 =>
    obtain ⟨slot, i, hp2⟩ := sepList0F_total parse_sub_luF '+' parse_sub_luF_suffix
      parse_sub_luF_total (f0 + 1) s hf
    rw [sepList0F_step_some (sepList0F parse_sub_luF '+') '/' f0 s slot i hp2] at hj
    cases hloop : sepLoopF (sepList0F parse_sub_luF '+') '/' (f0 + 1) i with
    | none => rw [hloop] at hj; exact absurd hj (by simp)
    | some q =>
      obtain ⟨ls2, r2⟩ := q
      rw [hloop] at hj
      simp only [Option.map_some', Option.some.injEq, Prod.mk.injEq] at hj
      obtain ⟨hl, hr⟩ := hj
      subst hl
      have hslot : slot.length ≤ 1 := sep_plus_no_plus (f0 + 1) s hf hnp slot i hp2
      have hsufi : i <:+ s := sepList0F_suffix parse_sub_luF '+' parse_sub_luF_suffix
        (f0 + 1) s slot i hp2
      have hi : i.length < f0 + 1 := by
        have := hsufi.length_le
        omega
      have hnpi : '+' ∉ i := fun hm => hnp (hsufi.subset hm)
      intro l hl
      rcases List.mem_cons.mp hl with h1 | h2
      · subst h1; exact hslot
      · exact sepLoop_joined_no_plus (f0 + 1) i hi hnpi ls2 r2 hloop l h2

/-- If the stream parser produced a JoinedLexicalUnit, the plain-LU
alternative (tried first) must have failed, and the joined alternative
produced the result. -/
theorem parse_stream_unitF_joined_inv (f : Nat) (s : Rem) (ls : List (List SubLU)) (r : Rem)
    (h : parse_stream_unitF f s = some (StreamUnit.JoinedLexicalUnit ls, r)) :
    parse_basic_luF f s = none ∧
    parse_joined_luF f s = some (StreamUnit.JoinedLexicalUnit ls, r) := by
  simp only [parse_stream_unitF] at h
  split at h
  · rename_i x hsp
    simp only [Option.some.injEq] at h
    subst h
    obtain ⟨t, ht⟩ := parse_space_shape s _ _ hsp
    exact absurd ht (by simp)
  · split at h
    · rename_i x hf2
      simp only [Option.some.injEq] at h
      subst h
      obtain ⟨t, ht⟩ := parse_format_shape s _ _ hf2
      exact absurd ht (by simp)
    · split at h
      · rename_i x hb
        simp only [Option.some.injEq] at h
        subst h
        obtain ⟨s1, l, hs, hsep, hu⟩ := parse_basic_luF_inv f s _ _ hb
        exact absurd hu (by simp)
      · split at h
        · rename_i x hj
          simp only [Option.some.injEq] at h
          subst h
          exact ⟨by assumption, hj⟩
        · obtain ⟨head, r1, cs, hsub, hcs, hu⟩ := parse_chunkF_inv f s _ _ h
          exact absurd hu (by simp)

/-- The plain-LU alternative has priority: if it succeeds, the stream parser
returns its result. -/
theorem parse_stream_unitF_basic_first (f : Nat) (s : Rem) (x : StreamUnit × Rem)
    (h : parse_basic_luF f s = some x) : parse_stream_unitF f s = some x := by
  obtain ⟨s1, l, hs, hsep, hu⟩ := parse_basic_luF_inv f s x.1 x.2 (by rw [h])
  subst hs
  rw [parse_stream_unitF, parse_space_none '^' s1 (by decide) (by decide),
    parse_format_none '^' s1 (by decide), h]


/-- Characterisation of a successful `is_not("[]")` run: non-empty, and all
characters either came from the accumulator or avoid the brackets. -/
theorem format_go_chars : ∀ (acc : List Char) (s : Rem) (t : List Char) (r : Rem),
    format_go acc s = some (t, r) →
    t ≠ [] ∧ ∀ c ∈ t, c ∈ acc ∨ (c ≠ '[' ∧ c ≠ ']')
  | _, [], t, r => by intro h; exact absurd h (by simp [format_go])
  | acc, c :: rest, t, r => by
    intro h
    simp only [format_go] at h
    split at h
    · rename_i hcr
      subst hcr
      split at h
      · exact absurd h (by simp)
      · rename_i hne
        simp only [Option.some.injEq, Prod.mk.injEq] at h
        obtain ⟨ht, hr⟩ := h
        subst ht
        constructor
        · simp only [ne_eq, List.reverse_eq_nil_iff]
          simpa [List.isEmpty_iff] using hne
        · intro d hd
          exact Or.inl (List.mem_reverse.mp hd)
    · split at h
      · exact absurd h (by simp)
      · rename_i hne hnl
        obtain ⟨ht, hmem⟩ := format_go_chars (c :: acc) rest t r h
        refine ⟨ht, ?_⟩
        intro d hd
        rcases hmem d hd with hin | hok
        · rcases List.mem_cons.mp hin with h1 | h2
          · subst h1
            exact Or.inr ⟨hnl, hne⟩
          · exact Or.inl h2
        · exact Or.inr hok

/-! ### Claim theorems -/

/-- Claim C1, counterexample: the claim puts `#` in the reserved delimiter
set, but the code's character class omits `#`: the escaping primitive accepts
a bare `#` as part of a lemma run (the claim requires it to be excluded), and
rejects the escape backslash-`#` (the claim requires it to produce a literal
`#`). -/
theorem c1_counterexample :
    ling_form_escape_parse ['#'] = some (['#'], []) ∧
    ling_form_escape_parse ['\\', '#'] = none := ⟨rfl, rfl⟩

/-- Claim C1 (amended): the reserved class is the twelve characters
caret, dollar, at, star, slash, angle brackets, curly brackets, backslash and
square brackets -- without `#`.  On non-empty input a successful parse
consumes at least one character (on empty input it succeeds consuming
nothing, with empty output).  A backslash followed by a member of the class
yields that literal character (escape consumed, not emitted); a backslash
followed by a non-member fails; a successful parse is maximal: it stops only
at the end of input or at an unescaped reserved character. -/
theorem c1_amended :
    ('#' ∉ lingFormReserved ∧
      lingFormReserved = ['^', '$', '@', '*', '/', '<', '>', '{', '}', '\\', '[', ']']) ∧
    (∀ s o r, s ≠ [] → ling_form_escape_parse s = some (o, r) → r.length < s.length) ∧
    ling_form_escape_parse [] = some ([], []) ∧
    (∀ c rest, c ∈ lingFormReserved →
      ling_form_escape_parse ('\\' :: c :: rest) =
        (escaped_transform_lf rest false).map (fun p => (c :: p.1, p.2))) ∧
    (∀ c rest, c ∉ lingFormReserved → ling_form_escape_parse ('\\' :: c :: rest) = none) ∧
    (∀ s o r, ling_form_escape_parse s = some (o, r) →
      r = [] ∨ ∃ c t, r = c :: t ∧ c ∈ lingFormReserved ∧ c ≠ '\\') := by
  refine ⟨⟨by decide, rfl⟩, ?_, rfl, ?_, ?_, ?_⟩
  · intro s o r hne h
    cases s with
    | nil => exact absurd rfl hne
    | cons c rest => exact ling_form_escape_parse_strict (c :: rest) o r hne h
  · intro c rest hc
    simp [ling_form_escape_parse, escaped_transform_lf,
      show ('\\' : Char) ∈ lingFormReserved from by decide, hc]
  · intro c rest hc
    simp [ling_form_escape_parse, escaped_transform_lf,
      show ('\\' : Char) ∈ lingFormReserved from by decide, hc]
  · intro s o r h
    rcases escaped_transform_lf_rest_shape s true o r h with h1 | ⟨c, t, hr, hcont, hbs⟩
    · exact Or.inl h1
    · refine Or.inr ⟨c, t, hr, ?_, hbs⟩
      simpa using hcont

theorem c1_amended_witness :
    (['a'] : Rem) ≠ [] ∧ (([] : Rem).length < (['a'] : Rem).length) :=
  ⟨by decide, c1_amended.2.1 ['a'] ['a'] [] (by decide) rfl⟩

/-- Claim C3, counterexample: parsing `^$` succeeds, but the inner SubUnit
list is not empty: nom's `separated_list0` accepts the zero-character
success of `parse_sub_lu` as a first element, so the result is one empty
SubUnit, not zero SubUnits. -/
theorem c3_counterexample :
    parse_stream_unit ['^', '$'] =
      some (StreamUnit.LexicalUnit [⟨[], Flag.Nothing, []⟩], []) ∧
    ¬ parse_stream_unit ['^', '$'] = some (StreamUnit.LexicalUnit [], []) := by
  refine ⟨rfl, ?_⟩
  intro h
  rw [show parse_stream_unit ['^', '$'] =
    some (StreamUnit.LexicalUnit [⟨[], Flag.Nothing, []⟩], []) from rfl] at h
  simp at h

/-- Claim C3 (amended): an empty body between `^` and `$` is syntactically
legal: parsing `^$` succeeds, and yields a LexicalUnit whose inner list is
the single SubUnit with empty lemma, no flag and no tags (not the empty
list). -/
theorem c3_amended :
    parse_stream_unit ['^', '$'] =
      some (StreamUnit.LexicalUnit [⟨[], Flag.Nothing, []⟩], []) ∧
    parse_basic_lu ['^', '$'] =
      some (StreamUnit.LexicalUnit [⟨[], Flag.Nothing, []⟩], []) := ⟨rfl, rfl⟩

/-- Claim C4: an input beginning with `^` whose remainder contains no `$`
fails as a stream unit: no alternative accepts it, no StreamUnit and no
partial SubUnit list is returned, and the opened unit is not reinterpreted
as literal text.  (The error itself is nom's generic error value, which the
specification calls UnterminatedUnit.) -/
theorem c4_unterminated_unit (s1 : Rem) (hnd : '$' ∉ s1) :
    parse_stream_unit ('^' :: s1) = none := by
  have hf : s1.length < ('^' :: s1).length + 1 := by
    simp only [List.length_cons]
    omega
  exact parse_stream_unitF_unterminated (('^' :: s1).length + 1) s1 hf hnd

theorem c4_unterminated_unit_witness : parse_stream_unit ['^', 'a', 'b'] = none :=
  c4_unterminated_unit ['a', 'b'] (by decide)

/-- Claim C5: the top-level stream parse succeeds on every input, returning
the accumulated units and the unconsumed remainder (a suffix of the input);
at the stopping point no top-level alternative matches, so an empty
remainder is normal termination and a non-empty remainder is surfaced to
the caller rather than aborting the parse. -/
theorem c5_stream_total (s : Rem) :
    ∃ us r, parse_stream s = some (us, r) ∧ r <:+ s ∧ parse_stream_unit r = none := by
  obtain ⟨us, r, h⟩ := parse_streamF_total (s.length + 1) s (by omega)
  exact ⟨us, r, h, parse_streamF_suffix (s.length + 1) s us r h,
    parse_streamF_rest (s.length + 1) s us r (by omega) h⟩

/-- Claim C8: no top-level alternative succeeds consuming zero characters --
every successful `parse_stream_unit` strictly shortens the input -- and
consequently the top-level accumulation loop never trips nom's infinite-loop
guard: `parse_stream` terminates with a result on every finite input. -/
theorem c8_progress :
    (∀ s u r, parse_stream_unit s = some (u, r) → r.length < s.length) ∧
    (∀ s, parse_stream s ≠ none) := by
  constructor
  · intro s u r h
    exact parse_stream_unitF_strict (s.length + 1) s u r h
  · intro s h
    obtain ⟨us, r, hsome⟩ := parse_streamF_total (s.length + 1) s (by omega)
    rw [show parse_stream s = parse_streamF (s.length + 1) s from rfl, hsome] at h
    exact absurd h (by simp)

theorem c8_progress_witness : ([] : Rem).length < ([' '] : Rem).length :=
  c8_progress.1 [' '] (StreamUnit.Space [' ']) [] rfl

/-- Claim C6: the SubUnit parser tries the lemma-bearing shape first and
commits to it when it succeeds; when that shape fails (in particular
whenever the character after the flag is an unescapable delimiter) it falls
back to the flag-and-tags-only shape, whose `ling_form` is always empty;
the SubUnit parser never fails, and `^*<det><ind><sg>$` parses to a single
SubUnit with empty lemma, flag Unanalyzed and tags det, ind, sg. -/
theorem c6_sub_lu_fallback :
    (∀ s x, parse_sub_lu_basic s = some x → parse_sub_lu s = some x) ∧
    (∀ s, parse_sub_lu_basic s = none →
      parse_sub_lu s = parse_sub_lu_without_ling_form s) ∧
    (∀ s c t, (parse_flag s).2 = c :: t → c ∈ lingFormReserved → c ≠ '\\' →
      parse_sub_lu_basic s = none) ∧
    (∀ s u r, parse_sub_lu_without_ling_form s = some (u, r) → u.ling_form = []) ∧
    (∀ s, ∃ u r, parse_sub_lu s = some (u, r)) ∧
    parse_stream_unit
      ['^', '*', '<', 'd', 'e', 't', '>', '<', 'i', 'n', 'd', '>', '<', 's', 'g', '>', '$'] =
      some (StreamUnit.LexicalUnit
        [⟨[], Flag.Unanalyzed, [['d', 'e', 't'], ['i', 'n', 'd'], ['s', 'g']]⟩], []) := by
  refine ⟨?_, ?_, ?_, ?_, ?_, rfl⟩
  · intro s x h
    simp [parse_sub_lu, parse_sub_luF, parse_sub_lu_basic] at h ⊢
    rw [h]
  · intro s h
    simp [parse_sub_lu_basic] at h
    simp [parse_sub_lu, parse_sub_luF, h, parse_sub_lu_without_ling_form]
  · intro s c t hflag hres hbs
    simp [parse_sub_lu_basic, parse_sub_lu_basicF, hflag,
      ling_form_escape_parse_stuck c t hres hbs]
  · intro s u r h
    simp only [parse_sub_lu_without_ling_form, parse_sub_lu_without_ling_formF] at h
    cases htags : many0_tags (s.length + 1) (parse_flag s).2 with
    | none => rw [htags] at h; exact absurd h (by simp)
    | some q =>
      rw [htags] at h
      simp only [Option.map_some', Option.some.injEq, Prod.mk.injEq] at h
      rw [← h.1]
  · intro s
    exact parse_sub_luF_total (s.length + 1) s (by omega)

theorem c6_sub_lu_fallback_witness :
    parse_sub_lu ['a'] = some (⟨['a'], Flag.Nothing, []⟩, []) :=
  c6_sub_lu_fallback.1 ['a'] (⟨['a'], Flag.Nothing, []⟩, []) rfl

/-- Claim C7: every child of a successfully parsed Chunk is a LexicalUnit,
a JoinedLexicalUnit, a Format or a Space; a child is never itself a Chunk
(the chunk-children parser has no Chunk alternative). -/
theorem c7_chunk_children (s : Rem) (head : SubLU) (cs : List StreamUnit) (r : Rem)
    (h : parse_chunk s = some (StreamUnit.Chunk head cs, r)) :
    (∀ c ∈ cs, (∃ l, c = StreamUnit.LexicalUnit l) ∨
      (∃ ls, c = StreamUnit.JoinedLexicalUnit ls) ∨
      (∃ t, c = StreamUnit.Format t) ∨ (∃ t, c = StreamUnit.Space t)) ∧
    ∀ c ∈ cs, ∀ head2 cs2, c ≠ StreamUnit.Chunk head2 cs2 := by
  obtain ⟨head2, r1, cs2, hsub, hcs, hu⟩ :=
    parse_chunkF_inv (s.length + 1) s (StreamUnit.Chunk head cs) r h
  rw [StreamUnit.Chunk.injEq] at hu
  obtain ⟨h1, h2⟩ := hu
  subst h2
  have hmem := many0F_elems parse_lu_or_space_or_formatF
    (fun u => (∃ l, u = StreamUnit.LexicalUnit l) ∨
      (∃ ls, u = StreamUnit.JoinedLexicalUnit ls) ∨
      (∃ t, u = StreamUnit.Format t) ∨ (∃ t, u = StreamUnit.Space t))
    (fun f s a r h => parse_lu_or_space_or_formatF_shape f s a r h)
    (s.length + 1) r1 cs ('}' :: r) hcs
  refine ⟨hmem, ?_⟩
  intro c hc head3 cs3 hcon
  rcases hmem c hc with ⟨l, hl⟩ | ⟨ls, hl⟩ | ⟨t, hl⟩ | ⟨t, hl⟩ <;>
    (rw [hcon] at hl; exact absurd hl (by simp))

theorem c7_chunk_children_witness :
    (∀ c ∈ [StreamUnit.LexicalUnit [⟨['b'], Flag.Nothing, []⟩]],
      (∃ l, c = StreamUnit.LexicalUnit l) ∨
      (∃ ls, c = StreamUnit.JoinedLexicalUnit ls) ∨
      (∃ t, c = StreamUnit.Format t) ∨ (∃ t, c = StreamUnit.Space t)) ∧
    ∀ c ∈ [StreamUnit.LexicalUnit [⟨['b'], Flag.Nothing, []⟩]],
      ∀ head2 cs2, c ≠ StreamUnit.Chunk head2 cs2 :=
  c7_chunk_children ['a', '{', '^', 'b', '$', '}'] ⟨['a'], Flag.Nothing, []⟩
    [StreamUnit.LexicalUnit [⟨['b'], Flag.Nothing, []⟩]] [] rfl

/-- Claim C9: the Format parser never produces an empty payload: `[]` fails
to parse (and is left as unconsumed remainder by the top-level parse), and
every successful Format payload is non-empty and contains neither `[` nor
`]`. -/
theorem c9_format_nonempty :
    parse_format ['[', ']'] = none ∧
    parse_stream ['[', ']'] = some ([], ['[', ']']) ∧
    (∀ s t r, parse_format s = some (StreamUnit.Format t, r) →
      t ≠ [] ∧ '[' ∉ t ∧ ']' ∉ t) := by
  refine ⟨rfl, rfl, ?_⟩
  intro s t r h
  cases s with
  | nil => exact absurd h (by simp [parse_format])
  | cons c rest =>
    simp only [parse_format] at h
    split at h
    · cases hgo : format_go [] rest with
      | none => rw [hgo] at h; exact absurd h (by simp)
      | some p =>
        obtain ⟨t2, r2⟩ := p
        rw [hgo] at h
        simp only [Option.map_some', Option.some.injEq, Prod.mk.injEq,
          StreamUnit.Format.injEq] at h
        obtain ⟨ht, hr⟩ := h
        subst ht
        obtain ⟨hne, hmem⟩ := format_go_chars [] rest t2 r2 hgo
        refine ⟨hne, ?_, ?_⟩
        · intro hin
          rcases hmem '[' hin with h1 | h2
          · simp at h1
          · exact h2.1 rfl
        · intro hin
          rcases hmem ']' hin with h1 | h2
          · simp at h1
          · exact h2.2 rfl
    · exact absurd h (by simp)

theorem c9_format_nonempty_witness :
    (['a'] : List Char) ≠ [] ∧ '[' ∉ (['a'] : List Char) ∧ ']' ∉ (['a'] : List Char) :=
  c9_format_nonempty.2.2 ['[', 'a', ']'] ['a'] [] rfl

/-- Claim C10: an input beginning directly with an opening curly bracket can
only come back from the stream parser as a Chunk whose head is the empty
SubUnit (empty lemma, no flag, no tags); the example with one inner lexical
unit parses accordingly. -/
theorem c10_chunk_empty_head :
    (∀ s1 u r, parse_stream_unit ('{' :: s1) = some (u, r) →
      ∃ cs, u = StreamUnit.Chunk ⟨[], Flag.Nothing, []⟩ cs) ∧
    parse_stream_unit ['{', '^', 'a', '$', '}'] =
      some (StreamUnit.Chunk ⟨[], Flag.Nothing, []⟩
        [StreamUnit.LexicalUnit [⟨['a'], Flag.Nothing, []⟩]], []) := by
  refine ⟨?_, rfl⟩
  intro s1 u r h
  rw [parse_stream_unit, parse_stream_unitF,
    parse_space_none '{' s1 (by decide) (by decide),
    parse_format_none '{' s1 (by decide),
    parse_basic_luF_none_head _ '{' s1 (by decide),
    parse_joined_luF_none_head _ '{' s1 (by decide)] at h
  obtain ⟨head, r1, cs, hsub, hcs, hu⟩ := parse_chunkF_inv _ _ _ _ h
  have hstuck := parse_sub_luF_stuck (('{' :: s1).length + 1) '{' s1 (by omega)
    (by decide) (by decide) (by decide) (by decide) (by decide) (by decide)
  rw [hstuck] at hsub
  simp only [Option.some.injEq, Prod.mk.injEq] at hsub
  exact ⟨cs, by rw [hu, ← hsub.1]⟩

theorem c10_chunk_empty_head_witness :
    ∃ cs, (StreamUnit.Chunk ⟨[], Flag.Nothing, []⟩ [] : StreamUnit) =
      StreamUnit.Chunk ⟨[], Flag.Nothing, []⟩ cs :=
  c10_chunk_empty_head.1 ['}'] (StreamUnit.Chunk ⟨[], Flag.Nothing, []⟩ []) [] rfl

/-- Claim C2: the stream parser tries the plain-LU shape before the joined
shape; a JoinedLexicalUnit result always has some `/`-slot with at least two
`+`-joined SubUnits; an input containing no `+` at all is never returned as
JoinedLexicalUnit; and `^ab/xy<n>+tx<a>$` parses to
JoinedLexicalUnit [[ab], [xy<n>, tx<a>]]. -/
theorem c2_joined_dispatch :
    (∀ s x, parse_basic_lu s = some x → parse_stream_unit s = some x) ∧
    (∀ s ls r, parse_stream_unit s = some (StreamUnit.JoinedLexicalUnit ls, r) →
      ∃ l ∈ ls, 2 ≤ l.length) ∧
    (∀ s, '+' ∉ s → ∀ ls r,
      parse_stream_unit s ≠ some (StreamUnit.JoinedLexicalUnit ls, r)) ∧
    parse_stream_unit
      ['^', 'a', 'b', '/', 'x', 'y', '<', 'n', '>', '+', 't', 'x', '<', 'a', '>', '$'] =
      some (StreamUnit.JoinedLexicalUnit
        [[⟨['a', 'b'], Flag.Nothing, []⟩],
         [⟨['x', 'y'], Flag.Nothing, [['n']]⟩, ⟨['t', 'x'], Flag.Nothing, [['a']]⟩]], []) := by
  refine ⟨?_, ?_, ?_, rfl⟩
  · intro s x h
    exact parse_stream_unitF_basic_first (s.length + 1) s x h
  · intro s ls r h
    obtain ⟨hb, hj⟩ := parse_stream_unitF_joined_inv (s.length + 1) s ls r h
    obtain ⟨s1, l, hs, hsep, hu⟩ := parse_joined_luF_inv (s.length + 1) s _ _ hj
    rw [StreamUnit.JoinedLexicalUnit.injEq] at hu
    subst hu
    subst hs
    by_contra hno
    push_neg at hno
    have hlen : ∀ l2 ∈ ls, l2.length ≤ 1 := by
      intro l2 hl2
      have := hno l2 hl2
      omega
    have hf : s1.length < ('^' :: s1).length + 1 := by
      simp only [List.length_cons]
      omega
    obtain ⟨us, hmap, hbasic⟩ :=
      joined_body_to_basic (('^' :: s1).length + 1) s1 ls ('$' :: r) hf hsep hlen
    have hbsome : parse_basic_luF (('^' :: s1).length + 1) ('^' :: s1) =
        some (StreamUnit.LexicalUnit us, r) := by
      simp only [List.length_cons] at hbasic
      simp [parse_basic_luF, hbasic]
    rw [hbsome] at hb
    exact absurd hb (by simp)
  · intro s hnp ls r h
    obtain ⟨hb, hj⟩ := parse_stream_unitF_joined_inv (s.length + 1) s ls r h
    obtain ⟨s1, l, hs, hsep, hu⟩ := parse_joined_luF_inv (s.length + 1) s _ _ hj
    rw [StreamUnit.JoinedLexicalUnit.injEq] at hu
    subst hu
    subst hs
    have hnp1 : '+' ∉ s1 := fun hm => hnp (by simp [hm])
    have hf : s1.length < ('^' :: s1).length + 1 := by
      simp only [List.length_cons]
      omega
    have hlen := joined_body_no_plus (('^' :: s1).length + 1) s1 hf hnp1 ls ('$' :: r) hsep
    obtain ⟨us, hmap, hbasic⟩ :=
      joined_body_to_basic (('^' :: s1).length + 1) s1 ls ('$' :: r) hf hsep hlen
    have hbsome : parse_basic_luF (('^' :: s1).length + 1) ('^' :: s1) =
        some (StreamUnit.LexicalUnit us, r) := by
      simp only [List.length_cons] at hbasic
      simp [parse_basic_luF, hbasic]
    rw [hbsome] at hb
    exact absurd hb (by simp)

theorem c2_joined_dispatch_witness :
    parse_stream_unit ['^', 'a', '$'] =
      some (StreamUnit.LexicalUnit [⟨['a'], Flag.Nothing, []⟩], []) :=
  c2_joined_dispatch.1 ['^', 'a', '$']
    (StreamUnit.LexicalUnit [⟨['a'], Flag.Nothing, []⟩], []) rfl

end Reinars
